import Mathlib

/-!
Verification of the trainsmarter backend core (src/backend/main.py).

Strings from the Python program are modelled as `List Char`; Python string
operations (`lower`, `upper`, substring membership `in`, `startswith`,
`strip`, `re.search` for the one fixed pattern, `json.loads` on a JSON
subset) are given explicit executable models below.  Each definition is a
direct translation of the corresponding Python code.
-/

set_option maxRecDepth 4000

/-! ## Basic string (List Char) utilities -/

/-- Python `str.lower` (ASCII, which covers all vocabulary used). -/
def pyLower (s : List Char) : List Char := s.map Char.toLower

/-- Python `str.upper` (ASCII). -/
def pyUpper (s : List Char) : List Char := s.map Char.toUpper

/-- `startsWith p s` models Python `s.startswith(p)` / pattern-at-head tests. -/
def startsWith : List Char → List Char → Bool
  | [], _ => true
  | _ :: _, [] => false
  | p :: ps, c :: cs => p = c && startsWith ps cs

/-- Split `s` at the first occurrence of pattern `pat`, returning the part
before the occurrence and the part after it.  `none` when `pat` does not
occur in `s`.  This models Python substring search (`pat in s`, `s.find`). -/
def findSplit (pat : List Char) : List Char → Option (List Char × List Char)
  | [] => if pat = [] then some ([], []) else none
  | c :: cs =>
    if startsWith pat (c :: cs) then some ([], (c :: cs).drop pat.length)
    else
      match findSplit pat cs with
      | some (b, a) => some (c :: b, a)
      | none => none

/-- Python `pat in s` (substring membership). -/
def containsStr (s pat : List Char) : Bool := (findSplit pat s).isSome

/-- Python whitespace class `\s` for ASCII (space, tab, newline, carriage
return, vertical tab, form feed); used by `str.strip` and the regex `\s*`. -/
def isPyWs (c : Char) : Bool :=
  c = ' ' || c = '\t' || c = '\n' || c = '\r' || c = Char.ofNat 11 || c = Char.ofNat 12

/-- Drop the leading Python-whitespace run (Python `str.lstrip`). -/
def pyLstrip : List Char → List Char
  | [] => []
  | c :: cs => if isPyWs c then pyLstrip cs else c :: cs

/-- Python `str.rstrip`. -/
def pyRstrip (s : List Char) : List Char := (pyLstrip s.reverse).reverse

/-- Python `str.strip`. -/
def pyStrip (s : List Char) : List Char := pyRstrip (pyLstrip s)

/-! ## Query parser (`parse_user_query`, main.py lines 217-279) -/

/-- `ALL_MUSCLES` (main.py lines 46-51). -/
def ALL_MUSCLES : List (List Char) :=
  ["chest".toList, "shoulders".toList, "biceps".toList, "triceps".toList,
   "forearms".toList, "lats".toList, "back".toList, "lower back".toList,
   "traps".toList, "abdominals".toList, "abs".toList, "obliques".toList,
   "core".toList, "quadriceps".toList, "quads".toList, "hamstrings".toList,
   "glutes".toList, "calves".toList, "adductors".toList, "abductors".toList,
   "legs".toList]

/-- `MUSCLE_TO_BODYPART` (main.py lines 54-76), as an association list. -/
def MUSCLE_TO_BODYPART : List (List Char × List Char) :=
  [("chest".toList, "Chest".toList),
   ("shoulders".toList, "Shoulders".toList),
   ("biceps".toList, "Upper Arms".toList),
   ("triceps".toList, "Upper Arms".toList),
   ("forearms".toList, "Lower Arms".toList),
   ("lats".toList, "Back".toList),
   ("back".toList, "Back".toList),
   ("lower back".toList, "Back".toList),
   ("traps".toList, "Back".toList),
   ("abdominals".toList, "Waist".toList),
   ("abs".toList, "Waist".toList),
   ("obliques".toList, "Waist".toList),
   ("core".toList, "Waist".toList),
   ("quadriceps".toList, "Upper Legs".toList),
   ("quads".toList, "Upper Legs".toList),
   ("hamstrings".toList, "Upper Legs".toList),
   ("glutes".toList, "Upper Legs".toList),
   ("calves".toList, "Lower Legs".toList),
   ("adductors".toList, "Upper Legs".toList),
   ("abductors".toList, "Upper Legs".toList),
   ("legs".toList, "Upper Legs".toList)]

/-- `MUSCLE_TO_BODYPART.get(m, "Chest")` (main.py line 244). -/
def bodypartFor (m : List Char) : List Char :=
  match MUSCLE_TO_BODYPART.find? (fun p => p.1 = m) with
  | some p => p.2
  | none => "Chest".toList

/-- `EQUIPMENT_TYPES` (main.py line 78). -/
def EQUIPMENT_TYPES : List (List Char) :=
  ["dumbbell".toList, "barbell".toList, "body weight".toList, "cable".toList,
   "machine".toList, "kettlebell".toList, "band".toList,
   "medicine ball".toList, "exercise ball".toList]

/-- `if x not in l: l.append(x)` (main.py lines 226-229). -/
def addIfAbsent (x : List Char) (l : List (List Char)) : List (List Char) :=
  if x ∈ l then l else l ++ [x]

/-- Muscles appended by the `"upper body"` alias (main.py line 232). -/
def upperBodyMuscles : List (List Char) :=
  ["chest".toList, "shoulders".toList, "biceps".toList, "triceps".toList,
   "back".toList]

/-- Muscles appended by the `"lower body"` alias (main.py line 235). -/
def lowerBodyMuscles : List (List Char) :=
  ["quadriceps".toList, "hamstrings".toList, "glutes".toList, "calves".toList]

/-- Muscles appended by the `"full body"`/`"total body"` alias (line 238). -/
def fullBodyMuscles : List (List Char) :=
  ["chest".toList, "quadriceps".toList, "back".toList, "shoulders".toList,
   "abs".toList]

/-- Muscle extraction with alias handling from the lowered query
(main.py lines 221-241), up to and including the deduplication. -/
def musclesOf (ql : List Char) : List (List Char) :=
  let m0 := ALL_MUSCLES.filter (fun m => containsStr ql m)
  let m1 :=
    if containsStr ql "arms".toList then
      addIfAbsent "triceps".toList (addIfAbsent "biceps".toList m0)
    else m0
  let m2 :=
    if containsStr ql "upper body".toList then m1 ++ upperBodyMuscles else m1
  let m3 :=
    if containsStr ql "lower body".toList then m2 ++ lowerBodyMuscles else m2
  let m4 :=
    if containsStr ql "full body".toList || containsStr ql "total body".toList then
      m3 ++ fullBodyMuscles
    else m3
  m4.dedup

/-- Body-part mapping (main.py line 244):
`list(set([MUSCLE_TO_BODYPART.get(m, "Chest") for m in muscles])) if muscles else []`. -/
def bodyPartsOf (muscles : List (List Char)) : List (List Char) :=
  if muscles = [] then [] else (muscles.map bodypartFor).dedup

/-- Keyword group mapped to "beginner" (main.py line 249). -/
def beginnerWords : List (List Char) :=
  ["beginner".toList, "easy".toList, "new".toList, "starting".toList]

/-- Keyword group mapped to "intermediate" (main.py line 251). -/
def intermediateWords : List (List Char) :=
  ["intermediate".toList, "moderate".toList]

/-- Keyword group mapped to "expert" (main.py line 253). -/
def expertWords : List (List Char) :=
  ["advanced".toList, "expert".toList, "hard".toList, "intense".toList]

/-- Difficulty keyword scan over the lowered query (main.py lines 249-254). -/
def scanDifficulty (ql : List Char) : Option (List Char) :=
  if beginnerWords.any (fun w => containsStr ql w) then some "beginner".toList
  else if intermediateWords.any (fun w => containsStr ql w) then
    some "intermediate".toList
  else if expertWords.any (fun w => containsStr ql w) then some "expert".toList
  else none

/-- Difficulty resolution (main.py lines 247-254).  `difficulty` is the
optional explicit argument; Python's `if not parsed_difficulty` treats both
`None` and the empty string as absent, and when the scan matches nothing the
initial value (None or the empty string) is kept. -/
def resolveDifficulty (ql : List Char) (difficulty : Option (List Char)) :
    Option (List Char) :=
  if difficulty = none || difficulty = some [] then
    match scanDifficulty ql with
    | some d => some d
    | none => difficulty
  else difficulty

/-- Equipment scan of the lowered query with alias handling
(main.py lines 259-270). -/
def scanEquipment (ql : List Char) : List (List Char) :=
  let e0 := EQUIPMENT_TYPES.filter (fun eq => containsStr ql eq)
  let e1 :=
    if containsStr ql "bodyweight".toList || containsStr ql "no equipment".toList
        || containsStr ql "home".toList then
      e0 ++ ["body weight".toList]
    else e0
  let e2 :=
    if containsStr ql "dumbbells".toList && !("dumbbell".toList ∈ e1 : Bool) then
      e1 ++ ["dumbbell".toList]
    else e1
  let e3 :=
    if containsStr ql "resistance band".toList && !("band".toList ∈ e2 : Bool) then
      e2 ++ ["band".toList]
    else e2
  e3

/-- Equipment resolution (main.py lines 257-272): `equipment or []` treats
`None` and `[]` alike, the query scan runs only when that is empty, and the
result is deduplicated. -/
def resolveEquipment (ql : List Char) (equipment : Option (List (List Char))) :
    List (List Char) :=
  let init := equipment.getD []
  let parsed := if init = [] then scanEquipment ql else init
  parsed.dedup

/-- Result of `parse_user_query`. -/
structure QueryParams where
  muscles : List (List Char)
  body_parts : List (List Char)
  difficulty : Option (List Char)
  equipment : List (List Char)
deriving DecidableEq

/-- `parse_user_query` (main.py lines 217-279). -/
def parse_user_query (query : List Char) (difficulty : Option (List Char))
    (equipment : Option (List (List Char))) : QueryParams :=
  let ql := pyLower query
  let muscles := musclesOf ql
  { muscles := muscles
    body_parts := bodyPartsOf muscles
    difficulty := resolveDifficulty ql difficulty
    equipment := resolveEquipment ql equipment }

/-! ## Exercise records and the filter (`filter_exercises`, lines 282-314) -/

/-- The fields of an ExerciseDB record that the program reads.  Fields read
with `ex.get(key, [])` are plain lists (a missing key behaves as `[]`);
fields read with `ex.get(key)` are `Option` (a missing key behaves as
`None`). -/
structure ExRecord where
  exerciseId : Option (List Char)
  name : Option (List Char)
  bodyParts : List (List Char)
  equipments : List (List Char)
  targetMuscles : List (List Char)
  secondaryMuscles : List (List Char)
  exerciseType : Option (List Char)
  imageUrl : Option (List Char)
  videoUrl : Option (List Char)
deriving DecidableEq

/-- Body-part match (main.py lines 290-293):
`any(bp.upper() in [p.upper() for p in ex.get("bodyParts", [])] for bp in params["body_parts"])`. -/
def matchesBodyParts (bps : List (List Char)) (ex : ExRecord) : Bool :=
  bps.any (fun bp => (ex.bodyParts.map pyUpper).contains (pyUpper bp))

/-- Equipment match (main.py lines 300-303). -/
def matchesEquipment (eqs : List (List Char)) (ex : ExRecord) : Bool :=
  eqs.any (fun eq => (ex.equipments.map pyLower).contains (pyLower eq))

/-- Body-part filter step (main.py lines 287-294). -/
def bodyStep (exercises : List ExRecord) (bps : List (List Char)) :
    List ExRecord :=
  if bps = [] then exercises else exercises.filter (matchesBodyParts bps)

/-- Equipment filter step with its ≥3 threshold (main.py lines 297-307). -/
def equipStep (filtered : List ExRecord) (eqs : List (List Char)) :
    List ExRecord :=
  if eqs = [] then filtered
  else
    let equipment_filtered := filtered.filter (matchesEquipment eqs)
    if 3 ≤ equipment_filtered.length then equipment_filtered else filtered

/-- The candidate set after the body-part and equipment steps. -/
def filterSteps12 (exercises : List ExRecord) (params : QueryParams) :
    List ExRecord :=
  equipStep (bodyStep exercises params.body_parts) params.equipment

/-- `filter_exercises` (main.py lines 282-314): the two filter steps, the
sparse-result fallback to `exercises[:30]`, and the final `[:30]` truncation. -/
def filter_exercises (exercises : List ExRecord) (params : QueryParams) :
    List ExRecord :=
  let filtered := filterSteps12 exercises params
  let expanded := if filtered.length < 3 then exercises.take 30 else filtered
  expanded.take 30

/-! ## Media URL enrichment (`fetch_exercises` post-processing, lines 194-205) -/

/-- `EXERCISE_IMAGE_CDN` (main.py line 43). -/
def EXERCISE_IMAGE_CDN : List Char :=
  "https://exercisedb.b-cdn.net/exercises-thumbnails".toList

/-- `EXERCISE_VIDEO_CDN` (main.py line 42). -/
def EXERCISE_VIDEO_CDN : List Char :=
  "https://exercisedb.b-cdn.net/exercises-videos".toList

/-- URL enrichment for one optional URL field (main.py lines 196-205):
run only when the field is present and truthy (non-empty), and prepend
`cdn + "/"` only when the URL does not start with `"http"`. -/
def enrichUrl (cdn : List Char) (u : Option (List Char)) : Option (List Char) :=
  match u with
  | none => none
  | some url =>
    if url = [] then some url
    else if startsWith "http".toList url then some url
    else some (cdn ++ '/' :: url)

/-- Post-processing of one record in the `for ex in exercises_cache` loop. -/
def enrichRecord (ex : ExRecord) : ExRecord :=
  { ex with
    imageUrl := enrichUrl EXERCISE_IMAGE_CDN ex.imageUrl
    videoUrl := enrichUrl EXERCISE_VIDEO_CDN ex.videoUrl }

/-- The whole enrichment loop over the cached list. -/
def enrichExercises (exercises : List ExRecord) : List ExRecord :=
  exercises.map enrichRecord

/-- Modelled from the spec's wording for claim comparison only: a URL
"begins with a scheme" when it starts with a letter followed by letters,
digits, `+`, `-` or `.` up to a `:` (RFC 3986 scheme syntax).  The source
code itself tests only `startswith("http")`. -/
def specSchemeTail : List Char → Bool
  | [] => false
  | c :: cs =>
    if c = ':' then true
    else (c.isAlpha || c.isDigit || c = '+' || c = '-' || c = '.') && specSchemeTail cs

/-- Modelled from the spec: "the URL begins with a scheme". -/
def specUrlHasScheme : List Char → Bool
  | [] => false
  | c :: cs => c.isAlpha && specSchemeTail cs

/-! ## Plan reconciliation (`generate_workout`, main.py lines 437-462) -/

/-- One entry of the plan's `exercises` array, as the code accesses it with
`plan_ex.get(...)`: every field may be missing. -/
structure PlanItem where
  id : Option (List Char)
  sets : Option Int
  reps : Option (List Char)
  rest_seconds : Option Int
  trainer_notes : Option (List Char)
deriving DecidableEq

/-- The reconciled exercise object sent to the frontend: the full record's
fields plus the plan fields and the derived presentation fields the code
adds (main.py lines 444-460). -/
structure FullExercise where
  record : ExRecord
  sets : Int
  reps : List Char
  restSeconds : Int
  trainerNotes : List Char
  id : Option (List Char)
  primaryMuscles : List (List Char)
  equipment : List Char
  level : List Char
  youtubeSearchUrl : List Char
deriving DecidableEq

/-- UTF-8 bytes of a character (for `urllib.parse.quote`). -/
def utf8Bytes (c : Char) : List Nat :=
  let n := c.toNat
  if n < 128 then [n]
  else if n < 2048 then [192 + n / 64, 128 + n % 64]
  else if n < 65536 then [224 + n / 4096, 128 + (n / 64) % 64, 128 + n % 64]
  else [240 + n / 262144, 128 + (n / 4096) % 64, 128 + (n / 64) % 64, 128 + n % 64]

/-- Upper-case hexadecimal digit. -/
def hexDigit (n : Nat) : Char :=
  if n < 10 then Char.ofNat (48 + n) else Char.ofNat (55 + n)

/-- Characters `urllib.parse.quote` leaves unescaped with the default
`safe='/'`: ASCII letters, digits, `_.-~` and `/`. -/
def quoteSafe (c : Char) : Bool :=
  (('a' ≤ c && c ≤ 'z') || ('A' ≤ c && c ≤ 'Z') || ('0' ≤ c && c ≤ '9')
    || c = '_' || c = '.' || c = '-' || c = '~' || c = '/')

/-- `urllib.parse.quote` (main.py line 459). -/
def pyQuote (s : List Char) : List Char :=
  s.flatMap (fun c =>
    if quoteSafe c then [c]
    else (utf8Bytes c).flatMap (fun b => ['%', hexDigit (b / 16), hexDigit (b % 16)]))

/-- `{ex.get("exerciseId"): ex for ex in all_exercises}` followed by a key
lookup: the last record carrying the id wins (main.py line 438). -/
def lookupExercise (catalog : List ExRecord) (i : List Char) : Option ExRecord :=
  catalog.foldl (fun acc ex => if ex.exerciseId = some i then some ex else acc) none

/-- Merge of one found record with one plan item (main.py lines 444-460). -/
def mergeExercise (ex : ExRecord) (pe : PlanItem) : FullExercise :=
  { record := ex
    sets := pe.sets.getD 3
    reps := pe.reps.getD "10-12".toList
    restSeconds := pe.rest_seconds.getD 60
    trainerNotes := pe.trainer_notes.getD []
    id := ex.exerciseId
    primaryMuscles := ex.targetMuscles
    equipment := List.intercalate ", ".toList ex.equipments
    level := "intermediate".toList
    youtubeSearchUrl :=
      "https://www.youtube.com/results?search_query=".toList
        ++ pyQuote ((ex.name.getD "exercise".toList) ++ " exercise tutorial".toList) }

/-- Processing of one plan item (main.py lines 441-462): the item survives
only when its id is present, truthy (non-empty) and found in the catalog
index. -/
def reconcileItem (catalog : List ExRecord) (pe : PlanItem) :
    Option FullExercise :=
  match pe.id with
  | none => none
  | some i =>
    if i = [] then none
    else
      match lookupExercise catalog i with
      | none => none
      | some ex => some (mergeExercise ex pe)

/-- The reconciliation loop (main.py lines 440-462). -/
def reconcile (planExercises : List PlanItem) (catalog : List ExRecord) :
    List FullExercise :=
  planExercises.filterMap (reconcileItem catalog)

/-! ## JSON values and a model of `json.loads` (for `generate_workout_plan`)

`json.loads` is modelled by an executable recursive-descent parser for a
JSON subset (null, booleans, integers, strings without escape sequences,
arrays, objects).  Whitespace handling is exactly JSON's: only space, tab,
newline and carriage return are skipped, so the model is as strict at the
edges of the text as the real parser.  On every text the model accepts, it
returns the same structure `json.loads` would. -/

/-- JSON whitespace (strictly smaller than Python's `\s`). -/
def isJsonWs (c : Char) : Bool :=
  c = ' ' || c = '\t' || c = '\n' || c = '\r'

/-- Skip leading JSON whitespace. -/
def skipWs : List Char → List Char
  | [] => []
  | c :: cs => if isJsonWs c then skipWs cs else c :: cs

/-- Structured JSON values. -/
inductive Jv where
  | null : Jv
  | bool : Bool → Jv
  | num : Int → Jv
  | str : List Char → Jv
  | arr : List Jv → Jv
  | obj : List (List Char × Jv) → Jv

/-- String literal body after the opening quote: plain characters up to the
closing quote; escape sequences are outside the modelled subset. -/
def parseStrBody : List Char → Option (List Char × List Char)
  | [] => none
  | c :: rest =>
    if c = '"' then some ([], rest)
    else if c = '\\' then none
    else
      match parseStrBody rest with
      | some (k, r) => some (c :: k, r)
      | none => none

/-- Maximal digit run at the front. -/
def munchDigits : List Char → List Char × List Char
  | [] => ([], [])
  | c :: rest =>
    if c.isDigit then
      let p := munchDigits rest
      (c :: p.1, p.2)
    else ([], c :: rest)

/-- Numeric value of a digit run. -/
def digitsToNat (ds : List Char) : Nat :=
  ds.foldl (fun a c => a * 10 + (c.toNat - 48)) 0

/-- Integer literal: optional minus sign then a nonempty digit run. -/
def parseNum : List Char → Option (Jv × List Char)
  | [] => none
  | c :: rest =>
    if c = '-' then
      if (munchDigits rest).1 = [] then none
      else some (Jv.num (-(digitsToNat (munchDigits rest).1 : Int)), (munchDigits rest).2)
    else
      if (munchDigits (c :: rest)).1 = [] then none
      else some (Jv.num (digitsToNat (munchDigits (c :: rest)).1 : Int), (munchDigits (c :: rest)).2)

def nullTok : List Char := "null".toList
def trueTok : List Char := "true".toList
def falseTok : List Char := "false".toList

mutual

/-- Parse one JSON value at the head of the input (no leading whitespace),
returning the value and the unconsumed remainder. -/
def parseVal : Nat → List Char → Option (Jv × List Char)
  | 0, _ => none
  | f + 1, s =>
    if startsWith nullTok s then some (Jv.null, s.drop 4)
    else if startsWith trueTok s then some (Jv.bool true, s.drop 4)
    else if startsWith falseTok s then some (Jv.bool false, s.drop 5)
    else
      match s with
      | [] => none
      | c :: rest =>
        if c = '"' then
          match parseStrBody rest with
          | some (k, r) => some (Jv.str k, r)
          | none => none
        else if c = '{' then
          match skipWs rest with
          | [] => none
          | c2 :: r =>
            if c2 = '}' then some (Jv.obj [], r)
            else
              match parseMembers f (c2 :: r) with
              | some (ps, r2) => some (Jv.obj ps, r2)
              | none => none
        else if c = '[' then
          match skipWs rest with
          | [] => none
          | c2 :: r =>
            if c2 = ']' then some (Jv.arr [], r)
            else
              match parseItems f (c2 :: r) with
              | some (vs, r2) => some (Jv.arr vs, r2)
              | none => none
        else parseNum (c :: rest)

/-- Parse a nonempty `"key": value` member list, consuming the closing `}`. -/
def parseMembers : Nat → List Char → Option (List (List Char × Jv) × List Char)
  | 0, _ => none
  | f + 1, s =>
    match s with
    | [] => none
    | c :: rest =>
      if c = '"' then
        match parseStrBody rest with
        | some (k, r1) =>
          match skipWs r1 with
          | [] => none
          | c2 :: r2 =>
            if c2 = ':' then
              match parseVal f (skipWs r2) with
              | some (v, r3) =>
                match skipWs r3 with
                | [] => none
                | c3 :: r4 =>
                  if c3 = ',' then
                    match parseMembers f (skipWs r4) with
                    | some (ps, r5) => some ((k, v) :: ps, r5)
                    | none => none
                  else if c3 = '}' then some ([(k, v)], r4)
                  else none
              | none => none
            else none
        | none => none
      else none

/-- Parse a nonempty value list, consuming the closing `]`. -/
def parseItems : Nat → List Char → Option (List Jv × List Char)
  | 0, _ => none
  | f + 1, s =>
    match parseVal f s with
    | some (v, r1) =>
      match skipWs r1 with
      | [] => none
      | c2 :: r2 =>
        if c2 = ',' then
          match parseItems f (skipWs r2) with
          | some (vs, r3) => some (v :: vs, r3)
          | none => none
        else if c2 = ']' then some ([v], r2)
        else none
    | none => none

end

/-- Model of `json.loads` (main.py line 374) on the subset above: skip
leading JSON whitespace, parse one value, and require only JSON whitespace
to remain.  The fuel `2*length+2` dominates the recursion depth. -/
def jsonParse (s : List Char) : Option Jv :=
  match parseVal (2 * s.length + 2) (skipWs s) with
  | some (v, r) => if skipWs r = [] then some v else none
  | none => none

/-! ## Markdown fence stripping (`generate_workout_plan`, lines 364-377) -/

def TRIPLE : List Char := "```".toList

def jsonTag : List Char := "json".toList

/-- Model of `re.search(r'```(?:json)?\s*([\s\S]*?)```', content)`, returning
the captured group.  The regex must start at the first triple-backtick; it
then optionally consumes `json`, greedily consumes whitespace (`\s*` — the
lazy group can also match whitespace, so the greedy run ends at the first
subsequent backtick anyway), and captures lazily up to the next
triple-backtick.  When no closing fence follows the first opening fence, no
fence anywhere can both open and close, so the search fails. -/
def reFence (content : List Char) : Option (List Char) :=
  match findSplit TRIPLE content with
  | none => none
  | some (_, rest) =>
    let rest1 := if startsWith jsonTag rest then rest.drop 4 else rest
    let body := pyLstrip rest1
    match findSplit TRIPLE body with
    | some (grp, _) => some grp
    | none => none

/-- The `json_str` the code hands to `json.loads` (main.py lines 364-371):
the raw content, unless it contains ``` and the regex matches, in which
case the captured group stripped of surrounding whitespace. -/
def extractJsonStr (content : List Char) : List Char :=
  if containsStr content TRIPLE then
    match reFence content with
    | some g => pyStrip g
    | none => content
  else content

/-- The response-parsing step: fence stripping followed by `json.loads`. -/
def modelParsePlanText (content : List Char) : Option Jv :=
  jsonParse (extractJsonStr content)

/-- `t` wrapped in a triple-backtick fence with a `json` language tag. -/
def wrapJsonFence (t : List Char) : List Char :=
  "```json\n".toList ++ t ++ "\n```".toList

/-- `t` wrapped in a triple-backtick fence without a language tag. -/
def wrapBareFence (t : List Char) : List Char :=
  "```\n".toList ++ t ++ "\n```".toList

/-! ## Sample data used by witnesses -/

/-- A catalog record with no body parts and no equipment. -/
def bareRec : ExRecord :=
  { exerciseId := some "ex1".toList
    name := some "pushup".toList
    bodyParts := []
    equipments := []
    targetMuscles := []
    secondaryMuscles := []
    exerciseType := none
    imageUrl := none
    videoUrl := none }

/-- A catalog record targeting the chest with a dumbbell. -/
def chestRec : ExRecord :=
  { exerciseId := some "ex2".toList
    name := some "bench press".toList
    bodyParts := ["Chest".toList]
    equipments := ["dumbbell".toList]
    targetMuscles := ["pectorals".toList]
    secondaryMuscles := []
    exerciseType := none
    imageUrl := some "bench.png".toList
    videoUrl := none }

/-- Parameters with every filter empty. -/
def emptyParams : QueryParams :=
  { muscles := [], body_parts := [], difficulty := none, equipment := [] }

/-- A record whose image URL is absolute with a non-http scheme. -/
def ftpRec : ExRecord :=
  { exerciseId := some "ex3".toList
    name := none
    bodyParts := []
    equipments := []
    targetMuscles := []
    secondaryMuscles := []
    exerciseType := none
    imageUrl := some "ftp://cdn.example.org/a.png".toList
    videoUrl := none }

/-- A plan item whose sets and reps are missing. -/
def samplePlanItem : PlanItem :=
  { id := some "ex2".toList
    sets := none
    reps := none
    rest_seconds := some 90
    trainer_notes := some "keep form".toList }

/-! # Theorems -/

/-! ## Helper lemmas on lists -/

theorem addIfAbsent_mem {x m : List Char} {l : List (List Char)}
    (h : m ∈ addIfAbsent x l) : m = x ∨ m ∈ l := by
  unfold addIfAbsent at h
  split at h
  · exact Or.inr h
  · rcases List.mem_append.1 h with h' | h'
    · exact Or.inr h'
    · exact Or.inl (List.mem_singleton.1 h')

/-- The alias rules in `parse_user_query` only ever append these muscles. -/
def aliasMuscles : List (List Char) :=
  ["biceps".toList, "triceps".toList, "chest".toList, "shoulders".toList,
   "back".toList, "quadriceps".toList, "hamstrings".toList, "glutes".toList,
   "calves".toList, "abs".toList]

theorem mem_ite_append {c : Prop} [Decidable c] {l extra : List (List Char)}
    {m : List Char} (h : m ∈ if c then l ++ extra else l) :
    m ∈ l ∨ m ∈ extra := by
  split at h
  · exact List.mem_append.1 h
  · exact Or.inl h

theorem mem_stage_arms {c : Prop} [Decidable c] {l : List (List Char)}
    {m : List Char}
    (h : m ∈ if c then
        addIfAbsent "triceps".toList (addIfAbsent "biceps".toList l) else l) :
    m ∈ l ∨ m ∈ aliasMuscles := by
  split at h
  · rcases addIfAbsent_mem h with h | h
    · exact Or.inr (by rw [h]; decide)
    · rcases addIfAbsent_mem h with h | h
      · exact Or.inr (by rw [h]; decide)
      · exact Or.inl h
  · exact Or.inl h

theorem musclesOf_mem {ql m : List Char} (h : m ∈ musclesOf ql) :
    m ∈ ALL_MUSCLES ∨ m ∈ aliasMuscles := by
  have hfull : ∀ x ∈ fullBodyMuscles, x ∈ aliasMuscles := by decide
  have hlow : ∀ x ∈ lowerBodyMuscles, x ∈ aliasMuscles := by decide
  have hup : ∀ x ∈ upperBodyMuscles, x ∈ aliasMuscles := by decide
  simp only [musclesOf, List.mem_dedup] at h
  rcases mem_ite_append h with h | hx
  · rcases mem_ite_append h with h | hx
    · rcases mem_ite_append h with h | hx
      · rcases mem_stage_arms h with h | hx
        · exact Or.inl (List.mem_of_mem_filter h)
        · exact Or.inr hx
      · exact Or.inr (hup m hx)
    · exact Or.inr (hlow m hx)
  · exact Or.inr (hfull m hx)

theorem muscle_is_key {m : List Char}
    (h : m ∈ ALL_MUSCLES ∨ m ∈ aliasMuscles) :
    (MUSCLE_TO_BODYPART.find? (fun p => p.1 = m)).isSome := by
  rcases h with h | h
  · revert h
    have : ∀ m ∈ ALL_MUSCLES,
        (MUSCLE_TO_BODYPART.find? (fun p => p.1 = m)).isSome = true := by decide
    exact this m
  · revert h
    have : ∀ m ∈ aliasMuscles,
        (MUSCLE_TO_BODYPART.find? (fun p => p.1 = m)).isSome = true := by decide
    exact this m

/-! ## Claim theorems: query parsing and filtering -/

/-- Claim C1: whenever the candidate count after the body-part and equipment
filter steps is below 3, `filter_exercises` returns exactly the first 30
records of the original catalog, in catalog order, discarding all filtering. -/
theorem claim_C1 (exercises : List ExRecord) (params : QueryParams)
    (h : (filterSteps12 exercises params).length < 3) :
    filter_exercises exercises params = exercises.take 30 := by
  unfold filter_exercises
  simp only [if_pos h, List.take_take, min_self]

theorem claim_C1_witness :
    (filterSteps12 [bareRec] emptyParams).length < 3 ∧
    filter_exercises [bareRec] emptyParams = [bareRec].take 30 :=
  ⟨by decide, claim_C1 [bareRec] emptyParams (by decide)⟩

/-- Claim C2: with a non-empty equipment list, the equipment step keeps the
equipment-matching subset only when it has at least 3 records and otherwise
leaves the candidate set unchanged; in particular an equipment set matching
zero records removes nothing. -/
theorem claim_C2 (candidates : List ExRecord) (eqs : List (List Char))
    (h : eqs ≠ []) :
    (equipStep candidates eqs =
      if 3 ≤ (candidates.filter (matchesEquipment eqs)).length
      then candidates.filter (matchesEquipment eqs) else candidates) ∧
    (candidates.filter (matchesEquipment eqs) = [] →
      equipStep candidates eqs = candidates) := by
  constructor
  · simp only [equipStep, if_neg h]
  · intro h0
    simp only [equipStep, if_neg h, h0, List.length_nil]
    simp

theorem claim_C2_witness :
    (["dumbbell".toList] : List (List Char)) ≠ [] ∧
    [bareRec].filter (matchesEquipment ["dumbbell".toList]) = [] ∧
    equipStep [bareRec] ["dumbbell".toList] = [bareRec] :=
  ⟨by decide, by decide,
    (claim_C2 [bareRec] ["dumbbell".toList] (by decide)).2 (by decide)⟩

/-- Claim C6: parsing "beginner chest workout with dumbbells" with no
explicit difficulty or equipment yields difficulty beginner, a muscle set
containing chest, body parts exactly {"Chest"} and equipment exactly
{"dumbbell"}. -/
theorem claim_C6 :
    (parse_user_query "beginner chest workout with dumbbells".toList none
        none).difficulty = some "beginner".toList ∧
    "chest".toList ∈ (parse_user_query
        "beginner chest workout with dumbbells".toList none none).muscles ∧
    (parse_user_query "beginner chest workout with dumbbells".toList none
        none).body_parts = ["Chest".toList] ∧
    (parse_user_query "beginner chest workout with dumbbells".toList none
        none).equipment = ["dumbbell".toList] := by decide

/-- Claim C8: the filter's output is empty exactly when the catalog itself
is empty; on a non-empty catalog the sparse-result fallback keeps the
candidate set non-empty. -/
theorem claim_C8 (exercises : List ExRecord) (params : QueryParams) :
    filter_exercises exercises params = [] ↔ exercises = [] := by
  constructor
  · intro h
    by_contra hne
    unfold filter_exercises at h
    simp only at h
    split at h
    · rw [List.take_take] at h
      rcases List.take_eq_nil_iff.1 h with h' | h'
      · omega
      · exact hne h'
    case isFalse hge =>
      rcases List.take_eq_nil_iff.1 h with h' | h'
      · omega
      · rw [h'] at hge
        simp at hge
  · intro h
    subst h
    have h12 : filterSteps12 [] params = [] := by
      unfold filterSteps12 bodyStep equipStep
      split
      · split
        · rfl
        · simp
      · simp only [List.filter_nil]
        split
        · split
          · simp at *
          · rfl
        · simp only [List.filter_nil]
          split
          · simp at *
          · rfl
    unfold filter_exercises
    rw [h12]
    simp

/-- Claim C10: every parsed muscle is a key of `MUSCLE_TO_BODYPART` (the
"Chest" default for unmapped muscles is never exercised), the parsed
body-part set is contained in the table's range, and it is empty exactly
when the muscle set is empty. -/
theorem claim_C10 (query : List Char) (difficulty : Option (List Char))
    (equipment : Option (List (List Char))) :
    (∀ m ∈ (parse_user_query query difficulty equipment).muscles,
      (MUSCLE_TO_BODYPART.find? (fun p => p.1 = m)).isSome) ∧
    (∀ bp ∈ (parse_user_query query difficulty equipment).body_parts,
      bp ∈ MUSCLE_TO_BODYPART.map Prod.snd) ∧
    ((parse_user_query query difficulty equipment).body_parts = [] ↔
      (parse_user_query query difficulty equipment).muscles = []) := by
  refine ⟨?_, ?_, ?_⟩
  · intro m hm
    exact muscle_is_key (musclesOf_mem hm)
  · intro bp hbp
    simp only [parse_user_query, bodyPartsOf] at hbp
    split at hbp
    · exact absurd hbp (List.not_mem_nil bp)
    · replace hbp := List.mem_dedup.1 hbp
      rcases List.mem_map.1 hbp with ⟨m, hm, hmap⟩
      have hkey := muscle_is_key (musclesOf_mem hm)
      rcases Option.isSome_iff_exists.1 hkey with ⟨p, hp⟩
      have hmem := List.mem_of_find?_eq_some hp
      rw [← hmap]
      unfold bodypartFor
      rw [hp]
      exact List.mem_map.2 ⟨p, hmem, rfl⟩
  · simp only [parse_user_query, bodyPartsOf]
    split
    case isTrue h => simp [h]
    case isFalse h =>
      constructor
      · intro hd
        rw [List.dedup_eq_nil] at hd
        exact absurd (List.map_eq_nil_iff.1 hd) h
      · intro hm
        exact absurd hm h

theorem claim_C10_witness :
    "Chest".toList ∈ MUSCLE_TO_BODYPART.map Prod.snd :=
  (claim_C10 "chest day".toList none none).2.1 "Chest".toList (by decide)

/-! ## Claim theorems: reconciliation -/

theorem lookupExercise_mem_aux {i : List Char} {ex : ExRecord} :
    ∀ (c : List ExRecord) (acc : Option ExRecord),
      c.foldl (fun acc x => if x.exerciseId = some i then some x else acc) acc
        = some ex →
      (ex ∈ c ∧ ex.exerciseId = some i) ∨ acc = some ex := by
  intro c
  induction c with
  | nil => intro acc h; exact Or.inr h
  | cons a c ih =>
    intro acc h
    rcases ih _ h with h' | h'
    · exact Or.inl ⟨List.mem_cons_of_mem a h'.1, h'.2⟩
    · by_cases ha : a.exerciseId = some i
      · have h2 : some a = some ex := by simpa [ha] using h'
        exact Or.inl ⟨by rw [← Option.some.inj h2]; exact List.mem_cons_self a c,
          by rw [← Option.some.inj h2]; exact ha⟩
      · have h2 : acc = some ex := by simpa [ha] using h'
        exact Or.inr h2

theorem lookupExercise_mem {catalog : List ExRecord} {i : List Char}
    {ex : ExRecord} (h : lookupExercise catalog i = some ex) :
    ex ∈ catalog ∧ ex.exerciseId = some i := by
  rcases lookupExercise_mem_aux catalog none h with h' | h'
  · exact h'
  · exact absurd h' (by simp)

theorem filterMap_map_some_sublist {α β : Type} (f : α → Option β) :
    ∀ l : List α, ((l.filterMap f).map some).Sublist (l.map f) := by
  intro l
  induction l with
  | nil => simp
  | cons a l ih =>
    cases hf : f a with
    | none => simp only [List.filterMap_cons, hf, List.map_cons]; exact ih.cons _
    | some b =>
      simp only [List.filterMap_cons, hf, List.map_cons]
      exact ih.cons₂ _

/-- Destructuring of a successful `reconcileItem`. -/
theorem reconcileItem_some {catalog : List ExRecord} {pe : PlanItem}
    {fe : FullExercise} (h : reconcileItem catalog pe = some fe) :
    ∃ i ex, pe.id = some i ∧ i ≠ [] ∧ lookupExercise catalog i = some ex ∧
      fe = mergeExercise ex pe := by
  unfold reconcileItem at h
  cases hid : pe.id with
  | none => rw [hid] at h; exact absurd h (by simp)
  | some i =>
    rw [hid] at h
    simp only at h
    split at h
    · exact absurd h (by simp)
    case isFalse hne =>
      cases hlook : lookupExercise catalog i with
      | none => rw [hlook] at h; exact absurd h (by simp)
      | some ex =>
        rw [hlook] at h
        simp only at h
        exact ⟨i, ex, rfl, hne, hlook, (Option.some.inj h).symm⟩

/-- Claim C3: reconciliation walks the plan's items in order, drops every
item whose id is not found in the catalog, never emits an entry whose id is
absent from the full catalog, and emits at most one entry per plan item, in
plan order. -/
theorem claim_C3 (plan : List PlanItem) (catalog : List ExRecord) :
    (∀ pe ∈ plan, ∀ i, pe.id = some i → lookupExercise catalog i = none →
      reconcileItem catalog pe = none) ∧
    (∀ fe ∈ reconcile plan catalog, ∃ ex ∈ catalog, ex.exerciseId = fe.id) ∧
    (reconcile plan catalog).length ≤ plan.length ∧
    ((reconcile plan catalog).map some).Sublist
      (plan.map (reconcileItem catalog)) := by
  refine ⟨?_, ?_, ?_, ?_⟩
  · intro pe _ i hid hnone
    unfold reconcileItem
    rw [hid]
    simp only
    split
    · rfl
    · rw [hnone]
  · intro fe hfe
    rcases List.mem_filterMap.1 hfe with ⟨pe, _, hrec⟩
    rcases reconcileItem_some hrec with ⟨i, ex, _, _, hlook, hfe'⟩
    refine ⟨ex, (lookupExercise_mem hlook).1, ?_⟩
    rw [hfe']
    rfl
  · exact List.length_filterMap_le _ _
  · exact filterMap_map_some_sublist _ plan

theorem claim_C3_witness :
    ∃ ex ∈ [chestRec],
      ex.exerciseId = (mergeExercise chestRec samplePlanItem).id :=
  (claim_C3 [samplePlanItem] [chestRec]).2.1
    (mergeExercise chestRec samplePlanItem) (by decide)

/-- Claim C9: for a plan item whose id is found, reconciliation defaults
missing fields (sets 3, reps "10-12", rest 60 seconds, empty trainer notes)
and copies present fields through unchanged. -/
theorem claim_C9 (catalog : List ExRecord) (pe : PlanItem) (fe : FullExercise)
    (h : reconcileItem catalog pe = some fe) :
    (pe.sets = none → fe.sets = 3) ∧
    (∀ n, pe.sets = some n → fe.sets = n) ∧
    (pe.reps = none → fe.reps = "10-12".toList) ∧
    (∀ s, pe.reps = some s → fe.reps = s) ∧
    (pe.rest_seconds = none → fe.restSeconds = 60) ∧
    (∀ n, pe.rest_seconds = some n → fe.restSeconds = n) ∧
    (pe.trainer_notes = none → fe.trainerNotes = []) ∧
    (∀ s, pe.trainer_notes = some s → fe.trainerNotes = s) := by
  rcases reconcileItem_some h with ⟨i, ex, _, _, _, hfe⟩
  subst hfe
  refine ⟨?_, ?_, ?_, ?_, ?_, ?_, ?_, ?_⟩ <;>
    first
      | (intro h'; simp [mergeExercise, h'])
      | (intro x h'; simp [mergeExercise, h'])

theorem claim_C9_witness :
    (mergeExercise chestRec samplePlanItem).sets = 3 ∧
    (mergeExercise chestRec samplePlanItem).restSeconds = 90 :=
  ⟨(claim_C9 [chestRec] samplePlanItem _ (by rfl)).1 rfl,
   (claim_C9 [chestRec] samplePlanItem _ (by rfl)).2.2.2.2.2.1 90 rfl⟩

/-! ## Claim theorems: URL enrichment (C4, corrected) -/

/-- Counterexample to claim C4 as stated: `ftp://cdn.example.org/a.png`
begins with a scheme, so by the claim it should be left untouched, but the
code — which only tests `startswith("http")` — prepends the CDN base. -/
theorem claim_C4_cex :
    specUrlHasScheme "ftp://cdn.example.org/a.png".toList = true ∧
    (enrichRecord ftpRec).imageUrl ≠ ftpRec.imageUrl ∧
    (enrichRecord ftpRec).imageUrl
      = some (EXERCISE_IMAGE_CDN ++ '/' :: "ftp://cdn.example.org/a.png".toList) := by
  refine ⟨by decide, by decide, by decide⟩

/-- Claim C4 as amended: during catalog post-processing, a present non-empty
image or video URL is prefixed with the fixed CDN base exactly when it does
not start with the literal prefix "http"; URLs starting with "http" are left
untouched. -/
theorem claim_C4_amended (ex : ExRecord) (url : List Char) :
    (ex.imageUrl = some url → url ≠ [] →
      ((startsWith "http".toList url = true →
          (enrichRecord ex).imageUrl = some url) ∧
       (startsWith "http".toList url = false →
          (enrichRecord ex).imageUrl = some (EXERCISE_IMAGE_CDN ++ '/' :: url)))) ∧
    (ex.videoUrl = some url → url ≠ [] →
      ((startsWith "http".toList url = true →
          (enrichRecord ex).videoUrl = some url) ∧
       (startsWith "http".toList url = false →
          (enrichRecord ex).videoUrl = some (EXERCISE_VIDEO_CDN ++ '/' :: url)))) := by
  constructor
  · intro hurl hne
    constructor
    · intro hpre
      simp only [enrichRecord, enrichUrl, hurl]
      rw [if_neg hne, if_pos hpre]
    · intro hpre
      simp only [enrichRecord, enrichUrl, hurl]
      rw [if_neg hne, if_neg (by simpa using hpre)]
  · intro hurl hne
    constructor
    · intro hpre
      simp only [enrichRecord, enrichUrl, hurl]
      rw [if_neg hne, if_pos hpre]
    · intro hpre
      simp only [enrichRecord, enrichUrl, hurl]
      rw [if_neg hne, if_neg (by simpa using hpre)]

theorem claim_C4_witness :
    (enrichRecord chestRec).imageUrl
      = some (EXERCISE_IMAGE_CDN ++ '/' :: "bench.png".toList) :=
  ((claim_C4_amended chestRec "bench.png".toList).1 rfl (by decide)).2 (by decide)

/-! ## Claim theorems: difficulty resolution (C5, corrected) -/

/-- Counterexample to claim C5 as stated: the empty string is a supplied
explicit difficulty, but Python's truthiness test treats it as absent, so
the query keywords win instead of the explicit value passing through
verbatim. -/
theorem claim_C5_cex :
    (parse_user_query "easy workout".toList (some []) none).difficulty
      = some "beginner".toList ∧
    some "beginner".toList ≠ some ([] : List Char) := by
  refine ⟨by decide, by decide⟩

/-- Claim C5 as amended: a non-empty explicit difficulty passes through
verbatim with no validation; when the explicit difficulty is absent or
empty, the lowered query is scanned against the keyword groups
{beginner, easy, new, starting} → beginner, {intermediate, moderate} →
intermediate and {advanced, expert, hard, intense} → expert, the first
matching group wins, and if none matches the supplied value (absent or
empty) is kept. -/
theorem claim_C5_amended (query : List Char) (difficulty : Option (List Char))
    (equipment : Option (List (List Char))) :
    (∀ d, difficulty = some d → d ≠ [] →
      (parse_user_query query difficulty equipment).difficulty = some d) ∧
    ((difficulty = none ∨ difficulty = some []) →
      ((beginnerWords.any (fun w => containsStr (pyLower query) w) = true →
        (parse_user_query query difficulty equipment).difficulty
          = some "beginner".toList) ∧
       (beginnerWords.any (fun w => containsStr (pyLower query) w) = false →
        intermediateWords.any (fun w => containsStr (pyLower query) w) = true →
        (parse_user_query query difficulty equipment).difficulty
          = some "intermediate".toList) ∧
       (beginnerWords.any (fun w => containsStr (pyLower query) w) = false →
        intermediateWords.any (fun w => containsStr (pyLower query) w) = false →
        expertWords.any (fun w => containsStr (pyLower query) w) = true →
        (parse_user_query query difficulty equipment).difficulty
          = some "expert".toList) ∧
       (beginnerWords.any (fun w => containsStr (pyLower query) w) = false →
        intermediateWords.any (fun w => containsStr (pyLower query) w) = false →
        expertWords.any (fun w => containsStr (pyLower query) w) = false →
        (parse_user_query query difficulty equipment).difficulty
          = difficulty))) := by
  constructor
  · intro d hd hne
    simp only [parse_user_query, resolveDifficulty, hd]
    rw [if_neg]
    simp only [Option.some.injEq, Bool.or_eq_true, decide_eq_true_eq]
    rintro (h | h)
    · exact Option.noConfusion h
    · exact hne h
  · intro hd
    have hcond : (difficulty = none || difficulty = some []) = true := by
      rcases hd with h | h <;> simp [h]
    refine ⟨?_, ?_, ?_, ?_⟩
    · intro hb
      simp only [parse_user_query, resolveDifficulty, hcond, if_pos,
        scanDifficulty, hb, if_true]
    · intro hb hi
      simp only [parse_user_query, resolveDifficulty, hcond, if_pos,
        scanDifficulty, hb, hi, if_true, Bool.false_eq_true, if_false]
    · intro hb hi he
      simp only [parse_user_query, resolveDifficulty, hcond, if_pos,
        scanDifficulty, hb, hi, he, if_true, Bool.false_eq_true, if_false]
    · intro hb hi he
      simp only [parse_user_query, resolveDifficulty, hcond, if_pos,
        scanDifficulty, hb, hi, he, Bool.false_eq_true, if_false]

theorem claim_C5_witness :
    (parse_user_query "hard run".toList (some "custom".toList) none).difficulty
      = some "custom".toList :=
  (claim_C5_amended "hard run".toList (some "custom".toList) none).1
    "custom".toList rfl (by decide)

/-! ## C7 groundwork: whitespace and pattern lemmas -/

theorem jsonWs_chars {c : Char} (h : isJsonWs c = true) :
    c = ' ' ∨ c = '\t' ∨ c = '\n' ∨ c = '\r' := by
  simp only [isJsonWs, Bool.or_eq_true, decide_eq_true_eq] at h
  tauto

theorem pyWs_of_jsonWs {c : Char} (h : isJsonWs c = true) : isPyWs c = true := by
  rcases jsonWs_chars h with rfl | rfl | rfl | rfl <;> rfl

theorem not_jsonWs_of_not_pyWs {c : Char} (h : isPyWs c = false) :
    isJsonWs c = false := by
  cases hj : isJsonWs c
  · rfl
  · rw [pyWs_of_jsonWs hj] at h
    exact absurd h (by simp)

theorem skipWs_cons_ws {c : Char} {s : List Char} (h : isJsonWs c = true) :
    skipWs (c :: s) = skipWs s := by
  simp [skipWs, h]

theorem skipWs_cons_nws {c : Char} {s : List Char} (h : isJsonWs c = false) :
    skipWs (c :: s) = c :: s := by
  simp [skipWs, h]

theorem skipWs_nil_of_allWs {s : List Char} (h : ∀ c ∈ s, isJsonWs c = true) :
    skipWs s = [] := by
  induction s with
  | nil => rfl
  | cons a s ih =>
    rw [skipWs_cons_ws (h a (List.mem_cons_self a s))]
    exact ih (fun c hc => h c (List.mem_cons_of_mem a hc))

theorem allWs_of_skipWs_nil {s : List Char} (h : skipWs s = []) :
    ∀ c ∈ s, isJsonWs c = true := by
  induction s with
  | nil => intro c hc; exact absurd hc (List.not_mem_nil c)
  | cons a s ih =>
    intro c hc
    by_cases ha : isJsonWs a = true
    · rw [skipWs_cons_ws ha] at h
      rcases List.mem_cons.1 hc with rfl | hc'
      · exact ha
      · exact ih h c hc'
    · rw [skipWs_cons_nws (by simpa using ha)] at h
      exact absurd h (by simp)

theorem skipWs_decomp (s : List Char) :
    ∃ w, s = w ++ skipWs s ∧ ∀ c ∈ w, isJsonWs c = true := by
  induction s with
  | nil => exact ⟨[], rfl, by simp⟩
  | cons a s ih =>
    by_cases ha : isJsonWs a = true
    · rcases ih with ⟨w, hw, hall⟩
      refine ⟨a :: w, ?_, ?_⟩
      · rw [skipWs_cons_ws ha, List.cons_append, ← hw]
      · intro c hc
        rcases List.mem_cons.1 hc with rfl | hc'
        · exact ha
        · exact hall c hc'
    · refine ⟨[], ?_, by simp⟩
      rw [skipWs_cons_nws (by simpa using ha), List.nil_append]

theorem skipWs_length (s : List Char) : (skipWs s).length ≤ s.length := by
  induction s with
  | nil => simp [skipWs]
  | cons a s ih =>
    by_cases ha : isJsonWs a = true
    · rw [skipWs_cons_ws ha]; simp; omega
    · rw [skipWs_cons_nws (by simpa using ha)]

theorem skipWs_append {x : List Char} (y : List Char)
    (hy : ∀ c ∈ y, isJsonWs c = true) :
    (skipWs x = [] ∧ skipWs (x ++ y) = []) ∨
    ∃ c z, skipWs x = c :: z ∧ skipWs (x ++ y) = c :: (z ++ y) := by
  induction x with
  | nil => exact Or.inl ⟨rfl, by rw [List.nil_append]; exact skipWs_nil_of_allWs hy⟩
  | cons a x ih =>
    by_cases ha : isJsonWs a = true
    · rw [List.cons_append, skipWs_cons_ws ha, skipWs_cons_ws ha]
      exact ih
    · replace ha : isJsonWs a = false := by simpa using ha
      exact Or.inr ⟨a, x, skipWs_cons_nws ha,
        by rw [List.cons_append, skipWs_cons_nws ha]⟩

theorem startsWith_append_self (p x : List Char) :
    startsWith p (p ++ x) = true := by
  induction p with
  | nil => rfl
  | cons a p ih => simp [startsWith, ih]

theorem startsWith_self (p : List Char) : startsWith p p = true := by
  have := startsWith_append_self p []
  rwa [List.append_nil] at this

theorem startsWith_ex {p s : List Char} (h : startsWith p s = true) :
    ∃ t, s = p ++ t := by
  induction p generalizing s with
  | nil => exact ⟨s, rfl⟩
  | cons a p ih =>
    cases s with
    | nil => exact absurd h (by simp [startsWith])
    | cons c s' =>
      simp only [startsWith, Bool.and_eq_true, decide_eq_true_eq] at h
      rcases ih h.2 with ⟨t, ht⟩
      exact ⟨t, by rw [h.1, List.cons_append, ht]⟩

theorem startsWith_mono {p x : List Char} (e : List Char)
    (h : startsWith p x = true) : startsWith p (x ++ e) = true := by
  rcases startsWith_ex h with ⟨t, rfl⟩
  rw [List.append_assoc]
  exact startsWith_append_self p (t ++ e)

theorem startsWith_cons_false {a c : Char} {p s : List Char} (h : a ≠ c) :
    startsWith (a :: p) (c :: s) = false := by
  simp [startsWith, h]

theorem sw_append_cases {p x y : List Char} (h : startsWith p (x ++ y) = true) :
    startsWith p x = true ∨
    ∃ p₁ p₂, p = p₁ ++ p₂ ∧ p₂ ≠ [] ∧ x = p₁ ∧ startsWith p₂ y = true := by
  induction p generalizing x with
  | nil => exact Or.inl rfl
  | cons a p ih =>
    cases x with
    | nil => exact Or.inr ⟨[], a :: p, rfl, by simp, rfl, by simpa using h⟩
    | cons b x' =>
      rw [List.cons_append] at h
      simp only [startsWith, Bool.and_eq_true, decide_eq_true_eq] at h
      rcases ih h.2 with h' | ⟨p₁, p₂, hpp, hne, hx, hsw⟩
      · exact Or.inl (by simp [startsWith, h.1, h'])
      · exact Or.inr ⟨b :: p₁, p₂, by rw [h.1, List.cons_append, hpp], hne,
          by rw [hx], hsw⟩

theorem startsWith_split_tok {p x e : List Char} (h : startsWith p (x ++ e) = true)
    (he : ∀ c ∈ e, isJsonWs c = true) (hp : ∀ c ∈ p, isJsonWs c = false) :
    ∃ x', x = p ++ x' := by
  rcases sw_append_cases h with h' | ⟨p₁, p₂, hpp, hne, rfl, hsw⟩
  · exact startsWith_ex h'
  · exfalso
    cases p₂ with
    | nil => exact hne rfl
    | cons q qs =>
      cases e with
      | nil => simp [startsWith] at hsw
      | cons d e' =>
        simp only [startsWith, Bool.and_eq_true, decide_eq_true_eq] at hsw
        have hq : isJsonWs q = false :=
          hp q (by rw [hpp]; exact List.mem_append_right _ (List.mem_cons_self q qs))
        have hd : isJsonWs d = true := he d (List.mem_cons_self d e')
        rw [hsw.1] at hq
        rw [hq] at hd
        exact absurd hd (by simp)

theorem findSplit_cons_none {pat : List Char} {c : Char} {cs : List Char}
    (h : findSplit pat (c :: cs) = none) :
    startsWith pat (c :: cs) = false ∧ findSplit pat cs = none := by
  unfold findSplit at h
  split at h
  · exact absurd h (by simp)
  case isFalse hc =>
    constructor
    · cases hb : startsWith pat (c :: cs)
      · rfl
      · exact absurd hb hc
    · cases hfs : findSplit pat cs with
      | none => rfl
      | some p => rw [hfs] at h; exact absurd h (by simp)

theorem findSplit_none_append {pat u w : List Char}
    (h : findSplit pat (u ++ w) = none) : findSplit pat w = none := by
  induction u with
  | nil => exact h
  | cons a u ih =>
    rw [List.cons_append] at h
    exact ih (findSplit_cons_none h).2

theorem findSplit_self {pat : List Char} (hpat : pat ≠ []) :
    findSplit pat pat = some ([], []) := by
  cases pat with
  | nil => exact absurd rfl hpat
  | cons p₀ ps =>
    unfold findSplit
    rw [if_pos (startsWith_self (p₀ :: ps))]
    rw [List.drop_length]

theorem findSplit_fence {pat a : List Char} (hpat : pat ≠ []) (hn : '\n' ∉ pat)
    (ha : findSplit pat a = none) :
    findSplit pat (a ++ '\n' :: pat) = some (a ++ ['\n'], []) := by
  induction a with
  | nil =>
    rw [List.nil_append]
    have hsw : startsWith pat ('\n' :: pat) = false := by
      cases pat with
      | nil => exact absurd rfl hpat
      | cons p₀ ps =>
        refine startsWith_cons_false (fun hp => hn ?_)
        rw [← hp]
        exact List.mem_cons_self p₀ ps
    unfold findSplit
    rw [hsw]
    simp only [Bool.false_eq_true, if_false, findSplit_self hpat]
    rfl
  | cons b a' ih =>
    rcases findSplit_cons_none ha with ⟨hswb, ha'⟩
    have hsw2 : startsWith pat ((b :: a') ++ '\n' :: pat) = false := by
      cases hb : startsWith pat ((b :: a') ++ '\n' :: pat)
      · rfl
      · exfalso
        rcases sw_append_cases hb with h' | ⟨p₁, p₂, hpp, hne, hx, hsw⟩
        · rw [h'] at hswb; exact absurd hswb (by simp)
        · cases p₂ with
          | nil => exact hne rfl
          | cons q qs =>
            simp only [startsWith, Bool.and_eq_true, decide_eq_true_eq] at hsw
            refine hn ?_
            rw [hpp, hsw.1]
            exact List.mem_append_right _ (List.mem_cons_self _ _)
    rw [List.cons_append]
    rw [List.cons_append] at hsw2
    unfold findSplit
    rw [hsw2]
    simp only [Bool.false_eq_true, if_false]
    rw [ih ha']
    rfl

theorem pyLstrip_cons_ws {c : Char} {s : List Char} (h : isPyWs c = true) :
    pyLstrip (c :: s) = pyLstrip s := by
  simp [pyLstrip, h]

theorem pyLstrip_cons_nws {c : Char} {s : List Char} (h : isPyWs c = false) :
    pyLstrip (c :: s) = c :: s := by
  simp [pyLstrip, h]

theorem pyLstrip_head {s : List Char} {c : Char} {z : List Char}
    (h : pyLstrip s = c :: z) : isPyWs c = false := by
  induction s with
  | nil => exact absurd h (by simp [pyLstrip])
  | cons a s ih =>
    by_cases ha : isPyWs a = true
    · rw [pyLstrip_cons_ws ha] at h
      exact ih h
    · replace ha : isPyWs a = false := by simpa using ha
      rw [pyLstrip_cons_nws ha] at h
      rw [← (List.cons.inj h).1]
      exact ha

theorem pyLstrip_append (x y : List Char) :
    (pyLstrip x = [] ∧ pyLstrip (x ++ y) = pyLstrip y) ∨
    ∃ c z, pyLstrip x = c :: z ∧ pyLstrip (x ++ y) = c :: (z ++ y) := by
  induction x with
  | nil => exact Or.inl ⟨rfl, by rw [List.nil_append]⟩
  | cons a x ih =>
    by_cases ha : isPyWs a = true
    · rw [List.cons_append, pyLstrip_cons_ws ha, pyLstrip_cons_ws ha]
      exact ih
    · replace ha : isPyWs a = false := by simpa using ha
      exact Or.inr ⟨a, x, pyLstrip_cons_nws ha,
        by rw [List.cons_append, pyLstrip_cons_nws ha]⟩

theorem pyLstrip_append_allws {w y : List Char} (hw : ∀ c ∈ w, isPyWs c = true) :
    pyLstrip (w ++ y) = pyLstrip y := by
  induction w with
  | nil => rw [List.nil_append]
  | cons a w ih =>
    rw [List.cons_append, pyLstrip_cons_ws (hw a (List.mem_cons_self a w))]
    exact ih (fun c hc => hw c (List.mem_cons_of_mem a hc))

theorem pyLstrip_decomp (s : List Char) : ∃ w, s = w ++ pyLstrip s := by
  induction s with
  | nil => exact ⟨[], rfl⟩
  | cons a s ih =>
    by_cases ha : isPyWs a = true
    · rcases ih with ⟨w, hw⟩
      exact ⟨a :: w, by rw [pyLstrip_cons_ws ha, List.cons_append, ← hw]⟩
    · replace ha : isPyWs a = false := by simpa using ha
      exact ⟨[], by rw [pyLstrip_cons_nws ha, List.nil_append]⟩

theorem pyRstrip_spec {cc : List Char} {ch : Char} {tail : List Char}
    (hch : isPyWs ch = false) (htail : ∀ c ∈ tail, isPyWs c = true) :
    pyRstrip (cc ++ ch :: tail) = cc ++ [ch] := by
  unfold pyRstrip
  rw [List.reverse_append, List.reverse_cons, List.append_assoc,
    pyLstrip_append_allws (fun c hc => htail c (List.mem_reverse.1 hc))]
  rw [show [ch] ++ cc.reverse = ch :: cc.reverse from rfl,
    pyLstrip_cons_nws hch, List.reverse_cons, List.reverse_reverse]

theorem pyLstrip_skipWs {t : List Char}
    (h : ∀ c z, skipWs t = c :: z → isPyWs c = false) :
    pyLstrip t = skipWs t := by
  induction t with
  | nil => rfl
  | cons a t ih =>
    by_cases ha : isJsonWs a = true
    · rw [skipWs_cons_ws ha, pyLstrip_cons_ws (pyWs_of_jsonWs ha)]
      refine ih (fun c z hc => h c z ?_)
      rw [skipWs_cons_ws ha, hc]
    · replace ha : isJsonWs a = false := by simpa using ha
      have hsk : skipWs (a :: t) = a :: t := skipWs_cons_nws ha
      rw [hsk, pyLstrip_cons_nws (h a t hsk)]

/-! ## C7 groundwork: token-level parser lemmas -/

theorem jsonWs_not_digit {c : Char} (h : isJsonWs c = true) :
    c.isDigit = false := by
  rcases jsonWs_chars h with rfl | rfl | rfl | rfl <;> decide

theorem pyWs_chars {c : Char} (h : isPyWs c = true) :
    c = ' ' ∨ c = '\t' ∨ c = '\n' ∨ c = '\r' ∨ c = Char.ofNat 11 ∨
      c = Char.ofNat 12 := by
  simp only [isPyWs, Bool.or_eq_true, decide_eq_true_eq] at h
  tauto

theorem digit_not_pyWs {c : Char} (h : c.isDigit = true) : isPyWs c = false := by
  cases hp : isPyWs c
  · rfl
  · rcases pyWs_chars hp with rfl | rfl | rfl | rfl | rfl | rfl <;>
      exact absurd h (by decide)

theorem psb_decomp {s k r : List Char} (h : parseStrBody s = some (k, r)) :
    s = k ++ '"' :: r := by
  induction s generalizing k r with
  | nil => exact absurd h (by simp [parseStrBody])
  | cons c rest ih =>
    unfold parseStrBody at h
    split at h
    case isTrue hc =>
      simp only [Option.some.injEq, Prod.mk.injEq] at h
      rw [hc, ← h.1, ← h.2]
      rfl
    case isFalse hc =>
      split at h
      · exact absurd h (by simp)
      case isFalse hbs =>
        cases hrec : parseStrBody rest with
        | none => rw [hrec] at h; exact absurd h (by simp)
        | some p =>
          obtain ⟨k', r'⟩ := p
          rw [hrec] at h
          simp only [Option.some.injEq, Prod.mk.injEq] at h
          rw [← h.1, ← h.2, List.cons_append]
          rw [ih hrec]

theorem psb_allWs_none {s : List Char} (h : ∀ c ∈ s, isJsonWs c = true) :
    parseStrBody s = none := by
  induction s with
  | nil => rfl
  | cons c rest ih =>
    have hc := h c (List.mem_cons_self c rest)
    have h1 : ¬(c = '"') := by rcases jsonWs_chars hc with rfl | rfl | rfl | rfl <;> decide
    have h2 : ¬(c = '\\') := by rcases jsonWs_chars hc with rfl | rfl | rfl | rfl <;> decide
    unfold parseStrBody
    rw [if_neg h1, if_neg h2, ih (fun c hc => h c (List.mem_cons_of_mem _ hc))]

theorem psb_trunc {x e k w : List Char} (he : ∀ c ∈ e, isJsonWs c = true)
    (h : parseStrBody (x ++ e) = some (k, w)) :
    ∃ r, w = r ++ e ∧ parseStrBody x = some (k, r) := by
  induction x generalizing k w with
  | nil =>
    rw [List.nil_append] at h
    rw [psb_allWs_none he] at h
    exact absurd h (by simp)
  | cons c x' ih =>
    rw [List.cons_append] at h
    unfold parseStrBody at h
    split at h
    case isTrue hc =>
      simp only [Option.some.injEq, Prod.mk.injEq] at h
      refine ⟨x', h.2.symm, ?_⟩
      unfold parseStrBody
      rw [if_pos hc, h.1]
    case isFalse hc =>
      split at h
      · exact absurd h (by simp)
      case isFalse hbs =>
        cases hrec : parseStrBody (x' ++ e) with
        | none => rw [hrec] at h; exact absurd h (by simp)
        | some p =>
          obtain ⟨k', r'⟩ := p
          rw [hrec] at h
          simp only [Option.some.injEq, Prod.mk.injEq] at h
          rcases ih hrec with ⟨r, hr, hx⟩
          refine ⟨r, by rw [← h.2, hr], ?_⟩
          unfold parseStrBody
          rw [if_neg hc, if_neg hbs, hx, ← h.1]

theorem munch_cons_digit {c : Char} {s : List Char} (h : c.isDigit = true) :
    munchDigits (c :: s) = (c :: (munchDigits s).1, (munchDigits s).2) := by
  simp [munchDigits, h]

theorem munch_cons_nondigit {c : Char} {s : List Char} (h : c.isDigit = false) :
    munchDigits (c :: s) = ([], c :: s) := by
  simp [munchDigits, h]

theorem munch_decomp (s : List Char) :
    s = (munchDigits s).1 ++ (munchDigits s).2 := by
  induction s with
  | nil => rfl
  | cons c rest ih =>
    by_cases hd : c.isDigit = true
    · rw [munch_cons_digit hd, List.cons_append, ← ih]
    · rw [munch_cons_nondigit (by simpa using hd)]
      rfl

theorem munch_all_digits (s : List Char) :
    ∀ c ∈ (munchDigits s).1, c.isDigit = true := by
  induction s with
  | nil => intro c hc; exact absurd hc (List.not_mem_nil c)
  | cons a rest ih =>
    intro c hc
    by_cases hd : a.isDigit = true
    · rw [munch_cons_digit hd] at hc
      rcases List.mem_cons.1 hc with rfl | hc'
      · exact hd
      · exact ih c hc'
    · rw [munch_cons_nondigit (by simpa using hd)] at hc
      exact absurd hc (List.not_mem_nil c)

theorem munch_append_ws {e : List Char} (he : ∀ c ∈ e, isJsonWs c = true)
    (x : List Char) :
    munchDigits (x ++ e) = ((munchDigits x).1, (munchDigits x).2 ++ e) := by
  induction x with
  | nil =>
    rw [List.nil_append]
    cases e with
    | nil => rfl
    | cons c e' =>
      rw [munch_cons_nondigit (jsonWs_not_digit (he c (List.mem_cons_self c e')))]
      rfl
  | cons a x' ih =>
    by_cases hd : a.isDigit = true
    · rw [List.cons_append, munch_cons_digit hd, munch_cons_digit hd, ih]
    · replace hd : a.isDigit = false := by simpa using hd
      rw [List.cons_append, munch_cons_nondigit hd, munch_cons_nondigit hd]
      rfl

theorem pnum_allWs_none {s : List Char} (h : ∀ c ∈ s, isJsonWs c = true) :
    parseNum s = none := by
  cases s with
  | nil => rfl
  | cons c rest =>
    have hc := h c (List.mem_cons_self c rest)
    have hcm : ¬(c = '-') := by rcases jsonWs_chars hc with rfl | rfl | rfl | rfl <;> decide
    simp only [parseNum]
    rw [if_neg hcm, munch_cons_nondigit (jsonWs_not_digit hc)]
    simp

theorem pnum_trunc {x e : List Char} {v : Jv} {w : List Char}
    (he : ∀ c ∈ e, isJsonWs c = true) (h : parseNum (x ++ e) = some (v, w)) :
    ∃ r, w = r ++ e ∧ parseNum x = some (v, r) := by
  cases x with
  | nil =>
    rw [List.nil_append, pnum_allWs_none he] at h
    exact absurd h (by simp)
  | cons c x' =>
    rw [List.cons_append] at h
    simp only [parseNum] at h
    by_cases hcm : c = '-'
    · rw [if_pos hcm, munch_append_ws he x'] at h
      simp only at h
      split at h
      · exact absurd h (by simp)
      next hds =>
        simp only [Option.some.injEq, Prod.mk.injEq] at h
        refine ⟨(munchDigits x').2, h.2.symm, ?_⟩
        simp only [parseNum]
        rw [if_pos hcm, if_neg hds, h.1]
    · rw [if_neg hcm, show c :: (x' ++ e) = (c :: x') ++ e from rfl,
        munch_append_ws he (c :: x')] at h
      simp only at h
      split at h
      · exact absurd h (by simp)
      next hds =>
        simp only [Option.some.injEq, Prod.mk.injEq] at h
        refine ⟨(munchDigits (c :: x')).2, h.2.symm, ?_⟩
        simp only [parseNum]
        rw [if_neg hcm, if_neg hds, h.1]

theorem pnum_decomp {s : List Char} {v : Jv} {r : List Char}
    (h : parseNum s = some (v, r)) :
    ∃ cc ch, s = cc ++ ch :: r ∧ isPyWs ch = false := by
  cases s with
  | nil => exact absurd h (by simp [parseNum])
  | cons c rest =>
    simp only [parseNum] at h
    by_cases hcm : c = '-'
    · rw [if_pos hcm] at h
      split at h
      · exact absurd h (by simp)
      next hds =>
        simp only [Option.some.injEq, Prod.mk.injEq] at h
        rcases List.eq_nil_or_concat (munchDigits rest).1 with hnil | ⟨init, d, hcat⟩
        · exact absurd hnil hds
        · refine ⟨c :: init, d, ?_, ?_⟩
          · rw [← h.2]
            have hd2 := munch_decomp rest
            rw [hcat] at hd2
            conv_lhs => rw [hd2]
            simp [List.concat_eq_append, List.append_assoc]
          · exact digit_not_pyWs (munch_all_digits rest d
              (by rw [hcat]; simp [List.concat_eq_append]))
    · rw [if_neg hcm] at h
      split at h
      · exact absurd h (by simp)
      next hds =>
        simp only [Option.some.injEq, Prod.mk.injEq] at h
        rcases List.eq_nil_or_concat (munchDigits (c :: rest)).1 with hnil | ⟨init, d, hcat⟩
        · exact absurd hnil hds
        · refine ⟨init, d, ?_, ?_⟩
          · rw [← h.2]
            have hd2 := munch_decomp (c :: rest)
            rw [hcat] at hd2
            conv_lhs => rw [hd2]
            simp [List.concat_eq_append, List.append_assoc]
          · exact digit_not_pyWs (munch_all_digits (c :: rest) d
              (by rw [hcat]; simp [List.concat_eq_append]))

theorem pnum_head {c : Char} {rest : List Char} {v : Jv} {w : List Char}
    (h : parseNum (c :: rest) = some (v, w)) :
    c = '-' ∨ c.isDigit = true := by
  simp only [parseNum] at h
  by_cases hcm : c = '-'
  · exact Or.inl hcm
  · right
    rw [if_neg hcm] at h
    by_cases hd : c.isDigit = true
    · exact hd
    · rw [munch_cons_nondigit (by simpa using hd)] at h
      simp at h

/-! ## C7 groundwork: parser branch lemmas -/

theorem parseVal_nil (f : Nat) : parseVal f [] = none := by
  cases f <;> rfl

theorem parseMembers_nil (f : Nat) : parseMembers f [] = none := by
  cases f <;> rfl

theorem parseItems_nil (f : Nat) : parseItems f [] = none := by
  cases f with
  | zero => rfl
  | succ f => simp only [parseItems, parseVal_nil]

theorem pv_succ_null (f : Nat) (rest : List Char) :
    parseVal (f + 1) (nullTok ++ rest) = some (Jv.null, rest) := rfl

theorem pv_succ_true (f : Nat) (rest : List Char) :
    parseVal (f + 1) (trueTok ++ rest) = some (Jv.bool true, rest) := rfl

theorem pv_succ_false (f : Nat) (rest : List Char) :
    parseVal (f + 1) (falseTok ++ rest) = some (Jv.bool false, rest) := rfl

theorem pv_succ_quote (f : Nat) (rest : List Char) :
    parseVal (f + 1) ('"' :: rest) =
      (match parseStrBody rest with
       | some (k, r) => some (Jv.str k, r)
       | none => none) := rfl

theorem pv_succ_brace (f : Nat) (rest : List Char) :
    parseVal (f + 1) ('{' :: rest) =
      (match skipWs rest with
       | [] => none
       | c2 :: r =>
         if c2 = '}' then some (Jv.obj [], r)
         else
           match parseMembers f (c2 :: r) with
           | some (ps, r2) => some (Jv.obj ps, r2)
           | none => none) := rfl

theorem pv_succ_brack (f : Nat) (rest : List Char) :
    parseVal (f + 1) ('[' :: rest) =
      (match skipWs rest with
       | [] => none
       | c2 :: r =>
         if c2 = ']' then some (Jv.arr [], r)
         else
           match parseItems f (c2 :: r) with
           | some (vs, r2) => some (Jv.arr vs, r2)
           | none => none) := rfl

theorem pv_succ_num {c : Char} {rest : List Char} (f : Nat)
    (hn : startsWith nullTok (c :: rest) = false)
    (ht : startsWith trueTok (c :: rest) = false)
    (hf : startsWith falseTok (c :: rest) = false)
    (hq : ¬(c = '"')) (hbr : ¬(c = '{')) (hbk : ¬(c = '[')) :
    parseVal (f + 1) (c :: rest) = parseNum (c :: rest) := by
  simp only [parseVal, hn, ht, hf, Bool.false_eq_true, if_false]
  rw [if_neg hq, if_neg hbr, if_neg hbk]

theorem pm_succ_quote (f : Nat) (rest : List Char) :
    parseMembers (f + 1) ('"' :: rest) =
      (match parseStrBody rest with
       | some (k, r1) =>
         (match skipWs r1 with
          | [] => none
          | c2 :: r2 =>
            if c2 = ':' then
              match parseVal f (skipWs r2) with
              | some (v, r3) =>
                (match skipWs r3 with
                 | [] => none
                 | c3 :: r4 =>
                   if c3 = ',' then
                     match parseMembers f (skipWs r4) with
                     | some (ps, r5) => some ((k, v) :: ps, r5)
                     | none => none
                   else if c3 = '}' then some ([(k, v)], r4)
                   else none)
              | none => none
            else none)
       | none => none) := rfl

theorem pm_succ_ne {c : Char} {rest : List Char} (f : Nat) (hc : ¬(c = '"')) :
    parseMembers (f + 1) (c :: rest) = none := by
  simp only [parseMembers]
  rw [if_neg hc]

theorem pi_succ (f : Nat) (s : List Char) :
    parseItems (f + 1) s =
      (match parseVal f s with
       | some (v, r1) =>
         (match skipWs r1 with
          | [] => none
          | c2 :: r2 =>
            if c2 = ',' then
              match parseItems f (skipWs r2) with
              | some (vs, r3) => some (v :: vs, r3)
              | none => none
            else if c2 = ']' then some ([v], r2)
            else none)
       | none => none) := rfl

theorem pv_allWs_none {e : List Char} (he : ∀ c ∈ e, isJsonWs c = true)
    (f : Nat) : parseVal f e = none := by
  cases f with
  | zero => rfl
  | succ f =>
    cases e with
    | nil => exact parseVal_nil _
    | cons c e' =>
      have hc := he c (List.mem_cons_self c e')
      have hn : startsWith nullTok (c :: e') = false := by
        rcases jsonWs_chars hc with rfl | rfl | rfl | rfl <;> rfl
      have ht : startsWith trueTok (c :: e') = false := by
        rcases jsonWs_chars hc with rfl | rfl | rfl | rfl <;> rfl
      have hf : startsWith falseTok (c :: e') = false := by
        rcases jsonWs_chars hc with rfl | rfl | rfl | rfl <;> rfl
      have hq : ¬(c = '"') := by
        rcases jsonWs_chars hc with rfl | rfl | rfl | rfl <;> decide
      have hbr : ¬(c = '{') := by
        rcases jsonWs_chars hc with rfl | rfl | rfl | rfl <;> decide
      have hbk : ¬(c = '[') := by
        rcases jsonWs_chars hc with rfl | rfl | rfl | rfl <;> decide
      rw [pv_succ_num f hn ht hf hq hbr hbk]
      exact pnum_allWs_none he

theorem pm_allWs_none {e : List Char} (he : ∀ c ∈ e, isJsonWs c = true)
    (f : Nat) : parseMembers f e = none := by
  cases f with
  | zero => rfl
  | succ f =>
    cases e with
    | nil => exact parseMembers_nil _
    | cons c e' =>
      have hc := he c (List.mem_cons_self c e')
      have hq : ¬(c = '"') := by
        rcases jsonWs_chars hc with rfl | rfl | rfl | rfl <;> decide
      exact pm_succ_ne f hq

theorem pi_allWs_none {e : List Char} (he : ∀ c ∈ e, isJsonWs c = true)
    (f : Nat) : parseItems f e = none := by
  cases f with
  | zero => rfl
  | succ f => rw [pi_succ, pv_allWs_none he]

theorem pv_head {f : Nat} {s : List Char} {v : Jv} {w : List Char}
    (h : parseVal f s = some (v, w)) :
    ∃ c s', s = c :: s' ∧ isPyWs c = false := by
  cases f with
  | zero => exact absurd h (by simp [parseVal])
  | succ f =>
    by_cases hn : startsWith nullTok s = true
    · rcases startsWith_ex hn with ⟨t, rfl⟩
      exact ⟨'n', "ull".toList ++ t, rfl, by decide⟩
    · by_cases ht : startsWith trueTok s = true
      · rcases startsWith_ex ht with ⟨t, rfl⟩
        exact ⟨'t', "rue".toList ++ t, rfl, by decide⟩
      · by_cases hf : startsWith falseTok s = true
        · rcases startsWith_ex hf with ⟨t, rfl⟩
          exact ⟨'f', "alse".toList ++ t, rfl, by decide⟩
        · cases s with
          | nil => rw [parseVal_nil] at h; exact absurd h (by simp)
          | cons c s' =>
            refine ⟨c, s', rfl, ?_⟩
            by_cases hq : c = '"'
            · rw [hq]; rfl
            · by_cases hbr : c = '{'
              · rw [hbr]; rfl
              · by_cases hbk : c = '['
                · rw [hbk]; rfl
                · rw [pv_succ_num f (by simpa using hn) (by simpa using ht)
                    (by simpa using hf) hq hbr hbk] at h
                  rcases pnum_head h with rfl | hd
                  · rfl
                  · exact digit_not_pyWs hd

theorem sw_false_restrict {p x : List Char} (e : List Char)
    (h : startsWith p (x ++ e) = false) : startsWith p x = false := by
  cases hb : startsWith p x
  · rfl
  · rw [startsWith_mono e hb] at h
    exact absurd h (by simp)

/-- Core lemma for C7, by induction on the fuel.  A successful parse of
`x ++ e`, where `e` is JSON whitespace, leaves `e` untouched inside the
remainder; the consumed text is nonempty and ends in a non-whitespace
character; and the run can be replayed on `x` alone with any sufficient
fuel. -/
theorem parse_trunc : ∀ f : Nat,
    (∀ x e v w, (∀ c ∈ e, isJsonWs c = true) →
      parseVal f (x ++ e) = some (v, w) →
      ∃ r, w = r ++ e ∧
        (∃ cc ch, x = cc ++ ch :: r ∧ isPyWs ch = false) ∧
        (∀ g, 2 * x.length + 2 ≤ g → parseVal g x = some (v, r))) ∧
    (∀ x e ps w, (∀ c ∈ e, isJsonWs c = true) →
      parseMembers f (x ++ e) = some (ps, w) →
      ∃ r, w = r ++ e ∧
        (∃ cc ch, x = cc ++ ch :: r ∧ isPyWs ch = false) ∧
        (∀ g, 2 * x.length + 3 ≤ g → parseMembers g x = some (ps, r))) ∧
    (∀ x e vs w, (∀ c ∈ e, isJsonWs c = true) →
      parseItems f (x ++ e) = some (vs, w) →
      ∃ r, w = r ++ e ∧
        (∃ cc ch, x = cc ++ ch :: r ∧ isPyWs ch = false) ∧
        (∀ g, 2 * x.length + 3 ≤ g → parseItems g x = some (vs, r))) := by
  intro f
  induction f with
  | zero =>
    refine ⟨?_, ?_, ?_⟩ <;> (intro x e a w _ h; exact absurd h (by simp [parseVal, parseMembers, parseItems]))
  | succ f ih =>
    obtain ⟨ihPV, ihPM, ihPI⟩ := ih
    refine ⟨?_, ?_, ?_⟩
    · -- parseVal
      intro x e v w he h
      by_cases hn : startsWith nullTok (x ++ e) = true
      · obtain ⟨x', rfl⟩ := startsWith_split_tok hn he (by decide)
        rw [List.append_assoc, pv_succ_null] at h
        simp only [Option.some.injEq, Prod.mk.injEq] at h
        obtain ⟨rfl, rfl⟩ := h
        refine ⟨x', rfl, ⟨"nul".toList, 'l', rfl, by decide⟩, ?_⟩
        intro g hg
        obtain ⟨g', rfl⟩ : ∃ g', g = g' + 1 := ⟨g - 1, by omega⟩
        exact pv_succ_null g' x'
      · replace hn : startsWith nullTok (x ++ e) = false := by simpa using hn
        by_cases ht : startsWith trueTok (x ++ e) = true
        · obtain ⟨x', rfl⟩ := startsWith_split_tok ht he (by decide)
          rw [List.append_assoc, pv_succ_true] at h
          simp only [Option.some.injEq, Prod.mk.injEq] at h
          obtain ⟨rfl, rfl⟩ := h
          refine ⟨x', rfl, ⟨"tru".toList, 'e', rfl, by decide⟩, ?_⟩
          intro g hg
          obtain ⟨g', rfl⟩ : ∃ g', g = g' + 1 := ⟨g - 1, by omega⟩
          exact pv_succ_true g' x'
        · replace ht : startsWith trueTok (x ++ e) = false := by simpa using ht
          by_cases hf : startsWith falseTok (x ++ e) = true
          · obtain ⟨x', rfl⟩ := startsWith_split_tok hf he (by decide)
            rw [List.append_assoc, pv_succ_false] at h
            simp only [Option.some.injEq, Prod.mk.injEq] at h
            obtain ⟨rfl, rfl⟩ := h
            refine ⟨x', rfl, ⟨"fals".toList, 'e', rfl, by decide⟩, ?_⟩
            intro g hg
            obtain ⟨g', rfl⟩ : ∃ g', g = g' + 1 := ⟨g - 1, by omega⟩
            exact pv_succ_false g' x'
          · replace hf : startsWith falseTok (x ++ e) = false := by simpa using hf
            cases x with
            | nil =>
              rw [List.nil_append, pv_allWs_none he] at h
              exact absurd h (by simp)
            | cons c x₁ =>
              rw [List.cons_append] at h
              have hn' := sw_false_restrict e (by rw [List.cons_append]; exact hn)
              have ht' := sw_false_restrict e (by rw [List.cons_append]; exact ht)
              have hf' := sw_false_restrict e (by rw [List.cons_append]; exact hf)
              by_cases hq : c = '"'
              · subst hq
                rw [pv_succ_quote] at h
                cases hsb : parseStrBody (x₁ ++ e) with
                | none => rw [hsb] at h; exact absurd h (by simp)
                | some p =>
                  obtain ⟨k, r1⟩ := p
                  rw [hsb] at h
                  simp only [Option.some.injEq, Prod.mk.injEq] at h
                  obtain ⟨rfl, rfl⟩ := h
                  obtain ⟨r1', rfl, hsbx⟩ := psb_trunc he hsb
                  refine ⟨r1', rfl, ?_, ?_⟩
                  · refine ⟨'"' :: k, '"', ?_, by decide⟩
                    rw [psb_decomp hsbx]
                    rfl
                  · intro g hg
                    obtain ⟨g', rfl⟩ : ∃ g', g = g' + 1 := ⟨g - 1, by omega⟩
                    rw [pv_succ_quote, hsbx]
              · by_cases hbr : c = '{'
                · subst hbr
                  rw [pv_succ_brace] at h
                  rcases skipWs_append (x := x₁) e he with ⟨hsA, hsB⟩ | ⟨c2, z2, hsx, hsxe⟩
                  · rw [hsB] at h
                    exact absurd h (by simp)
                  · rw [hsxe] at h
                    simp only at h
                    obtain ⟨ws1, hws1, _⟩ := skipWs_decomp x₁
                    by_cases hc2 : c2 = '}'
                    · subst hc2
                      rw [if_pos rfl] at h
                      simp only [Option.some.injEq, Prod.mk.injEq] at h
                      obtain ⟨rfl, rfl⟩ := h
                      refine ⟨z2, rfl, ?_, ?_⟩
                      · refine ⟨'{' :: ws1, '}', ?_, by decide⟩
                        conv_lhs => rw [hws1, hsx]
                        rfl
                      · intro g hg
                        obtain ⟨g', rfl⟩ : ∃ g', g = g' + 1 := ⟨g - 1, by omega⟩
                        rw [pv_succ_brace, hsx]
                        simp
                    · rw [if_neg hc2, ← List.cons_append] at h
                      cases hpm : parseMembers f ((c2 :: z2) ++ e) with
                      | none => rw [hpm] at h; exact absurd h (by simp)
                      | some q =>
                        obtain ⟨ps, r2⟩ := q
                        rw [hpm] at h
                        simp only [Option.some.injEq, Prod.mk.injEq] at h
                        obtain ⟨rfl, rfl⟩ := h
                        obtain ⟨r2', rfl, hdec, hrun⟩ := ihPM (c2 :: z2) e ps r2 he hpm
                        refine ⟨r2', rfl, ?_, ?_⟩
                        · obtain ⟨cc, ch, hcc, hch⟩ := hdec
                          refine ⟨'{' :: ws1 ++ cc, ch, ?_, hch⟩
                          conv_lhs => rw [hws1, hsx, hcc]
                          simp [List.append_assoc]
                        · intro g hg
                          obtain ⟨g', rfl⟩ : ∃ g', g = g' + 1 := ⟨g - 1, by omega⟩
                          have hlen : (c2 :: z2).length ≤ x₁.length := by
                            rw [← hsx]; exact skipWs_length x₁
                          rw [pv_succ_brace, hsx]
                          simp only
                          rw [if_neg hc2, hrun g' (by
                            simp only [List.length_cons] at hg hlen ⊢
                            omega)]
                · by_cases hbk : c = '['
                  · subst hbk
                    rw [pv_succ_brack] at h
                    rcases skipWs_append (x := x₁) e he with ⟨hsA, hsB⟩ | ⟨c2, z2, hsx, hsxe⟩
                    · rw [hsB] at h
                      exact absurd h (by simp)
                    · rw [hsxe] at h
                      simp only at h
                      obtain ⟨ws1, hws1, _⟩ := skipWs_decomp x₁
                      by_cases hc2 : c2 = ']'
                      · subst hc2
                        rw [if_pos rfl] at h
                        simp only [Option.some.injEq, Prod.mk.injEq] at h
                        obtain ⟨rfl, rfl⟩ := h
                        refine ⟨z2, rfl, ?_, ?_⟩
                        · refine ⟨'[' :: ws1, ']', ?_, by decide⟩
                          conv_lhs => rw [hws1, hsx]
                          rfl
                        · intro g hg
                          obtain ⟨g', rfl⟩ : ∃ g', g = g' + 1 := ⟨g - 1, by omega⟩
                          rw [pv_succ_brack, hsx]
                          simp
                      · rw [if_neg hc2, ← List.cons_append] at h
                        cases hpi : parseItems f ((c2 :: z2) ++ e) with
                        | none => rw [hpi] at h; exact absurd h (by simp)
                        | some q =>
                          obtain ⟨vs, r2⟩ := q
                          rw [hpi] at h
                          simp only [Option.some.injEq, Prod.mk.injEq] at h
                          obtain ⟨rfl, rfl⟩ := h
                          obtain ⟨r2', rfl, hdec, hrun⟩ := ihPI (c2 :: z2) e vs r2 he hpi
                          refine ⟨r2', rfl, ?_, ?_⟩
                          · obtain ⟨cc, ch, hcc, hch⟩ := hdec
                            refine ⟨'[' :: ws1 ++ cc, ch, ?_, hch⟩
                            conv_lhs => rw [hws1, hsx, hcc]
                            simp [List.append_assoc]
                          · intro g hg
                            obtain ⟨g', rfl⟩ : ∃ g', g = g' + 1 := ⟨g - 1, by omega⟩
                            have hlen : (c2 :: z2).length ≤ x₁.length := by
                              rw [← hsx]; exact skipWs_length x₁
                            rw [pv_succ_brack, hsx]
                            simp only
                            rw [if_neg hc2, hrun g' (by
                              simp only [List.length_cons] at hg hlen ⊢
                              omega)]
                  · rw [pv_succ_num f (by rw [← List.cons_append]; exact hn)
                      (by rw [← List.cons_append]; exact ht)
                      (by rw [← List.cons_append]; exact hf) hq hbr hbk,
                      ← List.cons_append] at h
                    obtain ⟨r', rfl, hnum⟩ := pnum_trunc he h
                    refine ⟨r', rfl, ?_, ?_⟩
                    · obtain ⟨cc, ch, hcc, hch⟩ := pnum_decomp hnum
                      exact ⟨cc, ch, hcc, hch⟩
                    · intro g hg
                      obtain ⟨g', rfl⟩ : ∃ g', g = g' + 1 := ⟨g - 1, by omega⟩
                      rw [pv_succ_num g' hn' ht' hf' hq hbr hbk]
                      exact hnum
    · -- parseMembers
      intro x e ps w he h
      cases x with
      | nil =>
        rw [List.nil_append, pm_allWs_none he] at h
        exact absurd h (by simp)
      | cons c x₁ =>
        rw [List.cons_append] at h
        by_cases hq : c = '"'
        case neg =>
          rw [pm_succ_ne f hq] at h
          exact absurd h (by simp)
        subst hq
        rw [pm_succ_quote] at h
        cases hsb : parseStrBody (x₁ ++ e) with
        | none => rw [hsb] at h; exact absurd h (by simp)
        | some p =>
          obtain ⟨k, r1⟩ := p
          rw [hsb] at h
          simp only at h
          obtain ⟨r1', rfl, hsbx⟩ := psb_trunc he hsb
          rcases skipWs_append (x := r1') e he with ⟨hsA, hsB⟩ | ⟨c2, z2, hs2, hs2e⟩
          · rw [hsB] at h; exact absurd h (by simp)
          · rw [hs2e] at h
            simp only at h
            by_cases h2 : c2 = ':'
            case neg =>
              rw [if_neg h2] at h
              exact absurd h (by simp)
            subst h2
            rw [if_pos rfl] at h
            rcases skipWs_append (x := z2) e he with ⟨hsA2, hsB2⟩ | ⟨c3, z3, hs3, hs3e⟩
            · rw [hsB2, parseVal_nil] at h
              exact absurd h (by simp)
            · rw [hs3e, ← List.cons_append] at h
              cases hpv : parseVal f ((c3 :: z3) ++ e) with
              | none => rw [hpv] at h; exact absurd h (by simp)
              | some q =>
                obtain ⟨v, r3⟩ := q
                rw [hpv] at h
                simp only at h
                obtain ⟨r3', rfl, hdec3, hrun3⟩ := ihPV (c3 :: z3) e v r3 he hpv
                obtain ⟨cc3, ch3, hcc3, hch3⟩ := hdec3
                rcases skipWs_append (x := r3') e he with ⟨hsA3, hsB3⟩ | ⟨c4, z4, hs4, hs4e⟩
                · rw [hsB3] at h; exact absurd h (by simp)
                · rw [hs4e] at h
                  simp only at h
                  -- length bookkeeping shared by both continuations
                  obtain ⟨w1, hw1, _⟩ := skipWs_decomp r1'
                  obtain ⟨w2, hw2, _⟩ := skipWs_decomp z2
                  obtain ⟨w3, hw3, _⟩ := skipWs_decomp r3'
                  have l1 : x₁.length = k.length + 1 + r1'.length := by
                    rw [psb_decomp hsbx]
                    simp only [List.length_append, List.length_cons]
                    omega
                  have l2 : r1'.length = w1.length + 1 + z2.length := by
                    conv_lhs => rw [hw1, hs2]
                    simp only [List.length_append, List.length_cons]
                    omega
                  have l3 : z2.length = w2.length + 1 + z3.length := by
                    conv_lhs => rw [hw2, hs3]
                    simp only [List.length_append, List.length_cons]
                    omega
                  have l4 : z3.length + 1 = cc3.length + 1 + r3'.length := by
                    have hlc := congrArg List.length hcc3
                    simp only [List.length_append, List.length_cons] at hlc
                    omega
                  have l5 : r3'.length = w3.length + 1 + z4.length := by
                    conv_lhs => rw [hw3, hs4]
                    simp only [List.length_append, List.length_cons]
                    omega
                  by_cases h4 : c4 = ','
                  · subst h4
                    rw [if_pos rfl] at h
                    rcases skipWs_append (x := z4) e he with ⟨hsA4, hsB4⟩ | ⟨c5, z5, hs5, hs5e⟩
                    · rw [hsB4, parseMembers_nil] at h
                      exact absurd h (by simp)
                    · rw [hs5e, ← List.cons_append] at h
                      cases hpm : parseMembers f ((c5 :: z5) ++ e) with
                      | none => rw [hpm] at h; exact absurd h (by simp)
                      | some q2 =>
                        obtain ⟨ps', r5⟩ := q2
                        rw [hpm] at h
                        simp only [Option.some.injEq, Prod.mk.injEq] at h
                        obtain ⟨rfl, rfl⟩ := h
                        obtain ⟨r5', rfl, hdec5, hrun5⟩ := ihPM (c5 :: z5) e ps' r5 he hpm
                        obtain ⟨w4, hw4, _⟩ := skipWs_decomp z4
                        obtain ⟨cc5, ch5, hcc5, hch5⟩ := hdec5
                        have l6 : z4.length = w4.length + 1 + z5.length := by
                          conv_lhs => rw [hw4, hs5]
                          simp only [List.length_append, List.length_cons]
                          omega
                        refine ⟨r5', rfl, ?_, ?_⟩
                        · refine ⟨'"' :: k ++ '"' :: w1 ++ ':' :: w2 ++ cc3 ++ ch3 :: w3
                            ++ ',' :: w4 ++ cc5, ch5, ?_, hch5⟩
                          conv_lhs => rw [psb_decomp hsbx, hw1, hs2, hw2, hs3, hcc3,
                            hw3, hs4, hw4, hs5, hcc5]
                          simp [List.append_assoc]
                        · intro g hg
                          obtain ⟨g', rfl⟩ : ∃ g', g = g' + 1 := ⟨g - 1, by omega⟩
                          simp only [List.length_cons] at hg
                          rw [pm_succ_quote, hsbx]
                          simp only
                          rw [hs2]
                          simp only
                          rw [if_pos trivial, hs3, hrun3 g' (by
                            simp only [List.length_cons]
                            omega)]
                          simp only
                          rw [hs4]
                          simp only
                          rw [if_pos trivial, hs5, hrun5 g' (by
                            simp only [List.length_cons]
                            omega)]
                  · by_cases h4' : c4 = '}'
                    · subst h4'
                      rw [if_neg (by decide), if_pos rfl] at h
                      simp only [Option.some.injEq, Prod.mk.injEq] at h
                      obtain ⟨rfl, rfl⟩ := h
                      refine ⟨z4, rfl, ?_, ?_⟩
                      · refine ⟨'"' :: k ++ '"' :: w1 ++ ':' :: w2 ++ cc3 ++ ch3 :: w3,
                          '}', ?_, by decide⟩
                        conv_lhs => rw [psb_decomp hsbx, hw1, hs2, hw2, hs3, hcc3,
                          hw3, hs4]
                        simp [List.append_assoc]
                      · intro g hg
                        obtain ⟨g', rfl⟩ : ∃ g', g = g' + 1 := ⟨g - 1, by omega⟩
                        simp only [List.length_cons] at hg
                        rw [pm_succ_quote, hsbx]
                        simp only
                        rw [hs2]
                        simp only
                        rw [if_pos trivial, hs3, hrun3 g' (by
                          simp only [List.length_cons]
                          omega)]
                        simp only
                        rw [hs4]
                        simp
                    · rw [if_neg h4, if_neg h4'] at h
                      exact absurd h (by simp)
    · -- parseItems
      intro x e vs w he h
      rw [pi_succ] at h
      cases hpv : parseVal f (x ++ e) with
      | none => rw [hpv] at h; exact absurd h (by simp)
      | some q =>
        obtain ⟨v, r1⟩ := q
        rw [hpv] at h
        simp only at h
        obtain ⟨r1', rfl, hdec1, hrun1⟩ := ihPV x e v r1 he hpv
        obtain ⟨cc1, ch1, hcc1, hch1⟩ := hdec1
        have l1 : x.length = cc1.length + 1 + r1'.length := by
          rw [hcc1]
          simp only [List.length_append, List.length_cons]
          omega
        rcases skipWs_append (x := r1') e he with ⟨hsA, hsB⟩ | ⟨c2, z2, hs2, hs2e⟩
        · rw [hsB] at h; exact absurd h (by simp)
        · rw [hs2e] at h
          simp only at h
          obtain ⟨w1, hw1, _⟩ := skipWs_decomp r1'
          have l2 : r1'.length = w1.length + 1 + z2.length := by
            conv_lhs => rw [hw1, hs2]
            simp only [List.length_append, List.length_cons]
            omega
          by_cases h2 : c2 = ','
          · subst h2
            rw [if_pos rfl] at h
            rcases skipWs_append (x := z2) e he with ⟨hsA2, hsB2⟩ | ⟨c3, z3, hs3, hs3e⟩
            · rw [hsB2, parseItems_nil] at h
              exact absurd h (by simp)
            · rw [hs3e, ← List.cons_append] at h
              cases hpi : parseItems f ((c3 :: z3) ++ e) with
              | none => rw [hpi] at h; exact absurd h (by simp)
              | some q2 =>
                obtain ⟨vs', r3⟩ := q2
                rw [hpi] at h
                simp only [Option.some.injEq, Prod.mk.injEq] at h
                obtain ⟨rfl, rfl⟩ := h
                obtain ⟨r3', rfl, hdec3, hrun3⟩ := ihPI (c3 :: z3) e vs' r3 he hpi
                obtain ⟨w2, hw2, _⟩ := skipWs_decomp z2
                obtain ⟨cc3, ch3, hcc3, hch3⟩ := hdec3
                have l3 : z2.length = w2.length + 1 + z3.length := by
                  conv_lhs => rw [hw2, hs3]
                  simp only [List.length_append, List.length_cons]
                  omega
                refine ⟨r3', rfl, ?_, ?_⟩
                · refine ⟨cc1 ++ ch1 :: w1 ++ ',' :: w2 ++ cc3, ch3, ?_, hch3⟩
                  conv_lhs => rw [hcc1, hw1, hs2, hw2, hs3, hcc3]
                  simp [List.append_assoc]
                · intro g hg
                  obtain ⟨g', rfl⟩ : ∃ g', g = g' + 1 := ⟨g - 1, by omega⟩
                  rw [pi_succ, hrun1 g' (by omega)]
                  simp only
                  rw [hs2]
                  simp only
                  rw [if_pos trivial, hs3, hrun3 g' (by
                    simp only [List.length_cons]
                    omega)]
          · by_cases h2' : c2 = ']'
            · subst h2'
              rw [if_neg (by decide), if_pos rfl] at h
              simp only [Option.some.injEq, Prod.mk.injEq] at h
              obtain ⟨rfl, rfl⟩ := h
              refine ⟨z2, rfl, ?_, ?_⟩
              · refine ⟨cc1 ++ ch1 :: w1, ']', ?_, by decide⟩
                conv_lhs => rw [hcc1, hw1, hs2]
                simp [List.append_assoc]
              · intro g hg
                obtain ⟨g', rfl⟩ : ∃ g', g = g' + 1 := ⟨g - 1, by omega⟩
                rw [pi_succ, hrun1 g' (by omega)]
                simp only
                rw [hs2]
                simp
            · rw [if_neg h2, if_neg h2'] at h
              exact absurd h (by simp)

/-- Stripping surrounding Python whitespace preserves a successful
`json.loads`: the stripped text is exactly the consumed value text. -/
theorem jsonParse_pyStrip {t : List Char} {v : Jv} (h : jsonParse t = some v) :
    jsonParse (pyStrip t) = some v := by
  unfold jsonParse at h
  cases hpv : parseVal (2 * t.length + 2) (skipWs t) with
  | none => rw [hpv] at h; exact absurd h (by simp)
  | some q =>
    obtain ⟨v', r⟩ := q
    rw [hpv] at h
    simp only at h
    split at h
    case isFalse => exact absurd h (by simp)
    case isTrue hr =>
      replace h : v' = v := Option.some.inj h
      subst h
      have her : ∀ c ∈ r, isJsonWs c = true := allWs_of_skipWs_nil hr
      obtain ⟨hc, hs', hshape, hcpw⟩ := pv_head hpv
      have h0 := (parse_trunc (2 * t.length + 2)).1 (skipWs t) [] v' r
        (by simp) (by rw [List.append_nil]; exact hpv)
      obtain ⟨r0, hr0, ⟨cc, ch, hdec, hch⟩, _⟩ := h0
      rw [List.append_nil] at hr0
      subst hr0
      have h1 := (parse_trunc (2 * t.length + 2)).1 (cc ++ [ch]) r v' r her
        (by
          rw [List.append_assoc, List.singleton_append, ← hdec]
          exact hpv)
      obtain ⟨r1, hr1, _, hrun⟩ := h1
      have hr1nil : r1 = [] := by
        have hl := congrArg List.length hr1
        simp only [List.length_append] at hl
        cases r1 with
        | nil => rfl
        | cons a b => simp only [List.length_cons] at hl; omega
      subst hr1nil
      have hlstrip : pyLstrip t = skipWs t := by
        refine pyLstrip_skipWs (fun c z hcz => ?_)
        rw [hshape] at hcz
        rw [← (List.cons.inj hcz).1]
        exact hcpw
      have hstrip : pyStrip t = cc ++ [ch] := by
        unfold pyStrip
        rw [hlstrip, hdec,
          pyRstrip_spec hch (fun c hcr => pyWs_of_jsonWs (her c hcr))]
      rw [hstrip]
      unfold jsonParse
      have hskipx : skipWs (cc ++ [ch]) = cc ++ [ch] := by
        cases cc with
        | nil =>
          simp only [List.nil_append]
          exact skipWs_cons_nws (not_jsonWs_of_not_pyWs hch)
        | cons a cc' =>
          rw [hshape] at hdec
          have ha : hc = a := (List.cons.inj (by rw [hdec]; rfl)).1
          rw [List.cons_append]
          refine skipWs_cons_nws (not_jsonWs_of_not_pyWs ?_)
          rw [← ha]
          exact hcpw
      rw [hskipx, hrun (2 * (cc ++ [ch]).length + 2) (le_refl _)]
      simp [skipWs]

/-! ## C7: the fence-stripping lemmas -/

theorem findSplit_head {pat x : List Char} (hpat : pat ≠ []) :
    findSplit pat (pat ++ x) = some ([], x) := by
  cases pat with
  | nil => exact absurd rfl hpat
  | cons p₀ ps =>
    have hsw := startsWith_append_self (p₀ :: ps) x
    rw [List.cons_append] at hsw
    rw [List.cons_append]
    unfold findSplit
    rw [if_pos hsw]
    simp only [List.length_cons, List.drop_succ_cons, List.drop_left]

theorem pyRstrip_snoc_ws {x : List Char} {d : Char} (hd : isPyWs d = true) :
    pyRstrip (x ++ [d]) = pyRstrip x := by
  unfold pyRstrip
  rw [List.reverse_append, List.reverse_singleton, List.singleton_append,
    pyLstrip_cons_ws hd]

/-- The captured regex group for a fenced body: searching for the closing
fence in `pyLstrip (t ++ "\n" ++ TRIPLE)` finds the final fence, and the
stripped capture equals the stripped plan text. -/
theorem fence_body {t : List Char} (hbt : findSplit TRIPLE t = none) :
    ∃ grp, findSplit TRIPLE (pyLstrip (t ++ '\n' :: TRIPLE)) = some (grp, [])
      ∧ pyStrip grp = pyStrip t := by
  rcases pyLstrip_append t ('\n' :: TRIPLE) with ⟨hA, hB⟩ | ⟨c, z, hcz, hce⟩
  · refine ⟨[], ?_, ?_⟩
    · rw [hB]
      rw [show pyLstrip ('\n' :: TRIPLE) = TRIPLE from rfl]
      exact findSplit_self (by decide)
    · unfold pyStrip
      rw [hA]
      rfl
  · have hnone : findSplit TRIPLE (c :: z) = none := by
      obtain ⟨w, hw⟩ := pyLstrip_decomp t
      rw [hcz] at hw
      rw [← hcz] at hw ⊢
      rw [hw] at hbt
      rw [hcz] at hbt ⊢
      exact findSplit_none_append hbt
    have hcnws : isPyWs c = false := pyLstrip_head hcz
    refine ⟨(c :: z) ++ ['\n'], ?_, ?_⟩
    · rw [hce, show (c :: (z ++ '\n' :: TRIPLE) : List Char)
        = (c :: z) ++ '\n' :: TRIPLE from rfl]
      exact findSplit_fence (by decide) (by decide) hnone
    · unfold pyStrip
      rw [show ((c :: z) ++ ['\n'] : List Char) = c :: (z ++ ['\n']) from rfl,
        pyLstrip_cons_nws hcnws,
        show (c :: (z ++ ['\n']) : List Char) = (c :: z) ++ ['\n'] from rfl,
        pyRstrip_snoc_ws (by decide), hcz]

theorem extract_wrapJson {t : List Char} (hbt : findSplit TRIPLE t = none) :
    extractJsonStr (wrapJsonFence t) = pyStrip t := by
  have hw : wrapJsonFence t
      = TRIPLE ++ (jsonTag ++ ('\n' :: (t ++ '\n' :: TRIPLE))) := rfl
  have hfs : findSplit TRIPLE (wrapJsonFence t)
      = some ([], jsonTag ++ ('\n' :: (t ++ '\n' :: TRIPLE))) := by
    rw [hw]
    exact findSplit_head (by decide)
  obtain ⟨grp, hgrp, hstrip⟩ := fence_body hbt
  unfold extractJsonStr
  rw [if_pos (by unfold containsStr; rw [hfs]; rfl)]
  unfold reFence
  rw [hfs]
  simp only
  rw [if_pos (startsWith_append_self jsonTag _),
    show (4 : Nat) = jsonTag.length from rfl, List.drop_left,
    pyLstrip_cons_ws (by decide), hgrp]
  exact hstrip

theorem extract_wrapBare {t : List Char} (hbt : findSplit TRIPLE t = none) :
    extractJsonStr (wrapBareFence t) = pyStrip t := by
  have hw : wrapBareFence t = TRIPLE ++ ('\n' :: (t ++ '\n' :: TRIPLE)) := rfl
  have hfs : findSplit TRIPLE (wrapBareFence t)
      = some ([], '\n' :: (t ++ '\n' :: TRIPLE)) := by
    rw [hw]
    exact findSplit_head (by decide)
  obtain ⟨grp, hgrp, hstrip⟩ := fence_body hbt
  unfold extractJsonStr
  rw [if_pos (by unfold containsStr; rw [hfs]; rfl)]
  unfold reFence
  rw [hfs]
  simp only
  have hj : startsWith jsonTag ('\n' :: (t ++ '\n' :: TRIPLE)) = false := rfl
  rw [if_neg (by rw [hj]; simp), pyLstrip_cons_ws (by decide), hgrp]
  exact hstrip

/-- Claim C7: a plan text with no triple backtick parses to the identical
structured object whether sent bare, fenced with a `json` tag, or fenced
without a tag. -/
theorem claim_C7 (t : List Char) (v : Jv)
    (hbt : findSplit TRIPLE t = none) (hparse : jsonParse t = some v) :
    modelParsePlanText t = some v ∧
    modelParsePlanText (wrapJsonFence t) = some v ∧
    modelParsePlanText (wrapBareFence t) = some v := by
  refine ⟨?_, ?_, ?_⟩
  · unfold modelParsePlanText extractJsonStr
    rw [if_neg (by unfold containsStr; rw [hbt]; simp)]
    exact hparse
  · unfold modelParsePlanText
    rw [extract_wrapJson hbt]
    exact jsonParse_pyStrip hparse
  · unfold modelParsePlanText
    rw [extract_wrapBare hbt]
    exact jsonParse_pyStrip hparse

theorem claim_C7_witness :
    findSplit TRIPLE " [3, null] ".toList = none ∧
    jsonParse " [3, null] ".toList = some (Jv.arr [Jv.num 3, Jv.null]) ∧
    modelParsePlanText (wrapJsonFence " [3, null] ".toList)
      = some (Jv.arr [Jv.num 3, Jv.null]) ∧
    modelParsePlanText (wrapBareFence " [3, null] ".toList)
      = some (Jv.arr [Jv.num 3, Jv.null]) :=
  ⟨by decide, by rfl,
    (claim_C7 " [3, null] ".toList (Jv.arr [Jv.num 3, Jv.null])
      (by decide) (by rfl)).2.1,
    (claim_C7 " [3, null] ".toList (Jv.arr [Jv.num 3, Jv.null])
      (by decide) (by rfl)).2.2⟩
